import Mathlib

/-!
Verification of the core of the BAT slope-analysis pipeline: slope computation from
an elevation grid, cost-surface construction, coordinate-to-index resolution, and the
least-cost path search over the 8-connected cost grid.
-/

namespace BatSlope

/-- Exact representation of numbers of the form `a + b·√2` with `a b : ℚ`.
Accumulated path costs in the 8-connected search are sums of cardinal edge weights
(rational) and diagonal edge weights (rational multiples of `√2`), so they live in
this set; the order is the one inherited from the reals and is decidable. -/
abbrev Q2 : Type := ℚ × ℚ

namespace Q2

/-- The real number denoted by `x : Q2`. -/
noncomputable def toR (x : Q2) : ℝ := (x.1 : ℝ) + (x.2 : ℝ) * Real.sqrt 2

/-- The order on `Q2`: comparison of the denoted real numbers. -/
def le (x y : Q2) : Prop := x.toR ≤ y.toR

/-- Strict order on `Q2`: comparison of the denoted real numbers. -/
def lt (x y : Q2) : Prop := x.toR < y.toR

theorem toR_add (x y : Q2) : (x + y).toR = x.toR + y.toR := by
  simp only [toR, Prod.fst_add, Prod.snd_add, Rat.cast_add]
  ring

theorem toR_zero : (0 : Q2).toR = 0 := by
  simp [toR]

/-- Rational criterion for nonnegativity of `p + q·√2`. -/
theorem nonneg_iff (p q : ℚ) :
    0 ≤ (p : ℝ) + (q : ℝ) * Real.sqrt 2 ↔
      ((0 ≤ p ∧ 0 ≤ q) ∨ (p < 0 ∧ 0 ≤ q ∧ p ^ 2 ≤ 2 * q ^ 2) ∨
        (0 ≤ p ∧ q < 0 ∧ 2 * q ^ 2 ≤ p ^ 2)) := by
  have hs2 : Real.sqrt 2 ^ 2 = 2 := Real.sq_sqrt (by norm_num)
  have hs0 : 0 ≤ Real.sqrt 2 := Real.sqrt_nonneg 2
  have hp2 : ((p ^ 2 : ℚ) : ℝ) = (p : ℝ) ^ 2 := by push_cast; ring
  have hq2 : ((2 * q ^ 2 : ℚ) : ℝ) = 2 * (q : ℝ) ^ 2 := by push_cast; ring
  rcases le_or_lt 0 p with hp | hp <;> rcases le_or_lt 0 q with hq | hq
  · have h1 : 0 ≤ (p : ℝ) := by exact_mod_cast hp
    have h2 : 0 ≤ (q : ℝ) := by exact_mod_cast hq
    constructor
    · intro _; exact Or.inl ⟨hp, hq⟩
    · intro _; positivity
  · -- 0 ≤ p, q < 0 : criterion is 2q² ≤ p²
    have h1 : 0 ≤ (p : ℝ) := by exact_mod_cast hp
    have h2 : (q : ℝ) < 0 := by exact_mod_cast hq
    constructor
    · intro h
      refine Or.inr (Or.inr ⟨hp, hq, ?_⟩)
      have h3 : 0 ≤ -(q : ℝ) * Real.sqrt 2 := mul_nonneg (by linarith) hs0
      have h4 : (-(q : ℝ) * Real.sqrt 2) * (-(q : ℝ) * Real.sqrt 2) ≤ (p : ℝ) * (p : ℝ) :=
        mul_self_le_mul_self h3 (by linarith)
      have e1 : (-(q : ℝ) * Real.sqrt 2) * (-(q : ℝ) * Real.sqrt 2) =
          (q : ℝ) ^ 2 * (Real.sqrt 2 ^ 2) := by ring
      rw [e1, hs2] at h4
      have hsq : 2 * (q : ℝ) ^ 2 ≤ (p : ℝ) ^ 2 := by nlinarith [h4]
      rw [← hq2, ← hp2] at hsq
      exact_mod_cast hsq
    · rintro ((⟨_, hq'⟩ | ⟨hp', _, _⟩ | ⟨_, _, hle⟩))
      · exact absurd hq' (not_le.mpr hq)
      · exact absurd hp (not_le.mpr hp')
      · have hle' : 2 * (q : ℝ) ^ 2 ≤ (p : ℝ) ^ 2 := by
          rw [← hq2, ← hp2]; exact_mod_cast hle
        nlinarith
  · -- p < 0, 0 ≤ q : criterion is p² ≤ 2q²
    have h1 : (p : ℝ) < 0 := by exact_mod_cast hp
    have h2 : 0 ≤ (q : ℝ) := by exact_mod_cast hq
    constructor
    · intro h
      refine Or.inr (Or.inl ⟨hp, hq, ?_⟩)
      have : (-(p : ℝ)) ≤ (q : ℝ) * Real.sqrt 2 := by linarith
      have hsq : (p : ℝ) ^ 2 ≤ 2 * (q : ℝ) ^ 2 := by nlinarith
      rw [← hq2, ← hp2] at hsq
      exact_mod_cast hsq
    · rintro ((⟨hp', _⟩ | ⟨_, _, hle⟩ | ⟨hp', _, _⟩))
      · exact absurd hp' (not_le.mpr hp)
      · have hle' : (p : ℝ) ^ 2 ≤ 2 * (q : ℝ) ^ 2 := by
          rw [← hq2, ← hp2]; exact_mod_cast hle
        by_contra hc
        push_neg at hc
        have h3 : 0 ≤ (q : ℝ) * Real.sqrt 2 := mul_nonneg h2 hs0
        have h4 : ((q : ℝ) * Real.sqrt 2) * ((q : ℝ) * Real.sqrt 2) <
            (-(p : ℝ)) * (-(p : ℝ)) := mul_self_lt_mul_self h3 (by linarith)
        have e1 : ((q : ℝ) * Real.sqrt 2) * ((q : ℝ) * Real.sqrt 2) =
            (q : ℝ) ^ 2 * (Real.sqrt 2 ^ 2) := by ring
        rw [e1, hs2] at h4
        nlinarith [h4]
      · exact absurd hp' (not_le.mpr hp)
  · -- p < 0, q < 0 : always negative
    have h1 : (p : ℝ) < 0 := by exact_mod_cast hp
    have h2 : (q : ℝ) < 0 := by exact_mod_cast hq
    constructor
    · intro h; nlinarith
    · rintro ((⟨hp', _⟩ | ⟨_, hq', _⟩ | ⟨hp', _, _⟩))
      · exact absurd hp' (not_le.mpr hp)
      · exact absurd hq' (not_le.mpr hq)
      · exact absurd hp' (not_le.mpr hp)

theorem le_iff_ratCond (x y : Q2) :
    le x y ↔
      ((0 ≤ y.1 - x.1 ∧ 0 ≤ y.2 - x.2) ∨
        (y.1 - x.1 < 0 ∧ 0 ≤ y.2 - x.2 ∧ (y.1 - x.1) ^ 2 ≤ 2 * (y.2 - x.2) ^ 2) ∨
        (0 ≤ y.1 - x.1 ∧ y.2 - x.2 < 0 ∧ 2 * (y.2 - x.2) ^ 2 ≤ (y.1 - x.1) ^ 2)) := by
  rw [← nonneg_iff]
  unfold le toR
  constructor <;> intro h <;> [skip; skip] <;>
    · push_cast at h ⊢
      nlinarith [Real.sqrt_nonneg 2, h]

instance decLe (x y : Q2) : Decidable (le x y) :=
  decidable_of_iff _ (le_iff_ratCond x y).symm

instance decLt (x y : Q2) : Decidable (lt x y) :=
  decidable_of_iff (¬ le y x) (by rw [le, lt, not_le])

theorem le_refl (x : Q2) : le x x := by unfold le; exact le_rfl

theorem le_trans {x y z : Q2} (h1 : le x y) (h2 : le y z) : le x z := h1.trans h2

theorem not_lt_iff_le {x y : Q2} : ¬ lt x y ↔ le y x := not_lt

theorem le_total_q2 (x y : Q2) : le x y ∨ le y x := le_total _ _

/-- `toR` is injective: `√2` is irrational, so `a + b√2` determines `(a, b)`. -/
theorem toR_inj {x y : Q2} (h : toR x = toR y) : x = y := by
  unfold toR at h
  by_cases hq : x.2 = y.2
  · have h1 : (x.1 : ℝ) = (y.1 : ℝ) := by rw [hq] at h; linarith
    have h2 : x.1 = y.1 := by exact_mod_cast h1
    exact Prod.ext h2 hq
  · exfalso
    have hs : Real.sqrt 2 = ((x.1 - y.1) / (y.2 - x.2) : ℚ) := by
      have hne : ((y.2 : ℝ) - (x.2 : ℝ)) ≠ 0 := by
        intro hz
        apply hq
        have : (x.2 : ℝ) = (y.2 : ℝ) := by linarith
        exact_mod_cast this
      push_cast
      field_simp
      nlinarith [h]
    exact irrational_sqrt_two ⟨_, hs.symm⟩

end Q2

/-! ## The cost grid and the 8-connected graph -/

/-- A cost grid: `h × w` cells holding a finite traversal cost per cell.  The searcher
operates on the array produced by the penalty substitution, whose cells are plain
finite floats; they are modelled as rationals. -/
structure CostGrid where
  h : ℕ
  w : ℕ
  cost : ℕ → ℕ → ℚ

/-- A grid index `(row, col)`. -/
abbrev Node : Type := ℕ × ℕ

/-- `v` is a valid index of `g`: `row < height` and `col < width`. -/
def inBounds (g : CostGrid) (v : Node) : Prop := v.1 < g.h ∧ v.2 < g.w

instance (g : CostGrid) (v : Node) : Decidable (inBounds g v) := by
  unfold inBounds; infer_instance

/-- Modelled from the spec: the fixed 8-neighbor enumeration order
N, NE, E, SE, S, SW, W, NW as `(Δrow, Δcol)` offsets (row grows southward,
column grows eastward). -/
def nbrOffsets : List (ℤ × ℤ) :=
  [(-1, 0), (-1, 1), (0, 1), (1, 1), (1, 0), (1, -1), (0, -1), (-1, -1)]

/-- The in-bounds 8-neighbors of a cell, in the fixed enumeration order; grid
boundaries are impassable (offsets leaving the grid are dropped, no wraparound). -/
def neighbors (g : CostGrid) (v : Node) : List Node :=
  nbrOffsets.filterMap (fun o =>
    if 0 ≤ (v.1 : ℤ) + o.1 ∧ (v.1 : ℤ) + o.1 < (g.h : ℤ) ∧
        0 ≤ (v.2 : ℤ) + o.2 ∧ (v.2 : ℤ) + o.2 < (g.w : ℤ) then
      some (((v.1 : ℤ) + o.1).toNat, ((v.2 : ℤ) + o.2).toNat)
    else none)

/-- Two cells are 8-adjacent: row and column each change by at most 1, not both 0. -/
def Adj (u v : Node) : Prop :=
  u ≠ v ∧ u.1 ≤ v.1 + 1 ∧ v.1 ≤ u.1 + 1 ∧ u.2 ≤ v.2 + 1 ∧ v.2 ≤ u.2 + 1

instance (u v : Node) : Decidable (Adj u v) := by unfold Adj; infer_instance

/-- A move is diagonal iff both coordinates change. -/
def isDiag (u v : Node) : Prop := u.1 ≠ v.1 ∧ u.2 ≠ v.2

instance (u v : Node) : Decidable (isDiag u v) := by unfold isDiag; infer_instance

/-- Modelled from the spec (§4.4 edge weighting policy, also the documented behavior
of the external `skimage.graph.route_through_array` with `fully_connected=True`):
the weight of the edge between adjacent cells `a` and `b` is
`((cost a + cost b) / 2) · step` with `step = 1` for a cardinal move and `step = √2`
for a diagonal move, represented exactly in `Q2`. -/
def edgeW (g : CostGrid) (u v : Node) : Q2 :=
  if isDiag u v then ((0 : ℚ), (g.cost u.1 u.2 + g.cost v.1 v.2) / 2)
  else ((g.cost u.1 u.2 + g.cost v.1 v.2) / 2, (0 : ℚ))

/-- `ValidPath g s e p`: `p` is a nonempty sequence of in-bounds cells from `s` to `e`
whose consecutive cells are 8-adjacent. -/
def ValidPath (g : CostGrid) (s e : Node) (p : List Node) : Prop :=
  p.head? = some s ∧ p.getLast? = some e ∧ List.Chain' Adj p ∧ ∀ v ∈ p, inBounds g v

/-- Total cost of a path: the sum of the weights of its edges. -/
def pathCost (g : CostGrid) : List Node → Q2
  | [] => 0
  | [_] => 0
  | a :: b :: rest => edgeW g a b + pathCost g (b :: rest)

theorem mem_neighbors (g : CostGrid) (u v : Node) :
    v ∈ neighbors g u ↔ Adj u v ∧ inBounds g v := by
  obtain ⟨ur, uc⟩ := u
  obtain ⟨vr, vc⟩ := v
  simp only [neighbors, nbrOffsets, List.mem_filterMap, List.mem_cons, List.not_mem_nil,
    or_false, Adj, inBounds, ne_eq, Prod.mk.injEq, not_and]
  constructor
  · rintro ⟨o, ho, hv⟩
    rcases ho with rfl | rfl | rfl | rfl | rfl | rfl | rfl | rfl <;>
      (split_ifs at hv with hc
       all_goals
         first
         | exact Option.noConfusion hv
         | (simp only [Option.some.injEq, Prod.mk.injEq] at hv; omega))
  · rintro ⟨hne, hb⟩
    refine ⟨((vr : ℤ) - ur, (vc : ℤ) - uc), ?_, ?_⟩
    · simp only [Prod.mk.injEq]
      omega
    · rw [if_pos (by omega)]
      simp only [Option.some.injEq, Prod.mk.injEq]
      omega

/-! ## The searcher state: frontier entries, priority pop, Dijkstra loop.
All of it is modelled from the spec (§4.4): the external routing routine called by the
notebook (`skimage.graph.route_through_array`) is not part of the repository source. -/

/-- A frontier entry: accumulated key from the start, insertion counter (stable
FIFO tie-breaking), the cell, and the finalized neighbor that led to it. -/
structure Entry where
  key : Q2
  cnt : ℕ
  node : Node
  pred : Option Node
deriving DecidableEq

/-- `better e₁ e₂`: `e₁` is popped in preference to `e₂` — strictly smaller key, or
equal keys and earlier insertion (insertion-order tie-breaking). -/
def better (e₁ e₂ : Entry) : Prop :=
  Q2.lt e₁.key e₂.key ∨ (e₁.key = e₂.key ∧ e₁.cnt < e₂.cnt)

instance (e₁ e₂ : Entry) : Decidable (better e₁ e₂) := by unfold better; infer_instance

/-- Pop the highest-priority entry (least key, ties by insertion order) from the
frontier, returning it and the remaining entries. -/
def popMin : List Entry → Option (Entry × List Entry)
  | [] => none
  | e :: rest =>
    match popMin rest with
    | none => some (e, [])
    | some (b, rest') => if better b e then some (b, e :: rest') else some (e, rest)

/-- Search state: finalized distances, predecessor map, finalization timestamps,
timestamp counter, frontier, insertion counter. -/
structure SState where
  dist : Node → Option Q2
  pred : Node → Option Node
  time : Node → Option ℕ
  tcnt : ℕ
  frontier : List Entry
  cnt : ℕ

/-- Point update of a map. -/
def upd {β : Type} (f : Node → β) (v : Node) (b : β) : Node → β :=
  fun x => if x = v then b else f x

/-- Entries pushed when a cell `v` is finalized at key `k`: one entry per listed cell,
with fresh, strictly increasing insertion counters starting at `n`. -/
def mkPushes (g : CostGrid) (v : Node) (k : Q2) : List Node → ℕ → List Entry
  | [], _ => []
  | u :: us, n => ⟨k + edgeW g v u, n, u, some v⟩ :: mkPushes g v k us (n + 1)

/-- State after finalizing popped entry `e` (remaining frontier `rest`): record its key
as the cell's distance, its predecessor, and its finalization timestamp. -/
def finState (st : SState) (e : Entry) (rest : List Entry) : SState :=
  { dist := upd st.dist e.node (some e.key)
    pred := upd st.pred e.node e.pred
    time := upd st.time e.node (some st.tcnt)
    tcnt := st.tcnt + 1
    frontier := rest
    cnt := st.cnt }

/-- The not-yet-finalized in-bounds neighbors of `v`, in the fixed enumeration order. -/
def relaxTargets (g : CostGrid) (st : SState) (v : Node) : List Node :=
  (neighbors g v).filter (fun u => (st.dist u).isNone)

/-- State after finalizing `e` and pushing entries for its not-yet-finalized in-bounds
neighbors (insertion = append, with fresh increasing counters). -/
def contState (g : CostGrid) (st : SState) (e : Entry) (rest : List Entry) : SState :=
  { finState st e rest with
    frontier := rest ++ mkPushes g e.node e.key (relaxTargets g st e.node) st.cnt
    cnt := st.cnt + (relaxTargets g st e.node).length }

/-- One fuelled Dijkstra-style frontier expansion: pop the least entry; discard it if
its cell is already finalized; otherwise finalize the cell at its key, record the
predecessor, and stop if it is the end cell, else push entries for its not-yet-finalized
in-bounds neighbors (in the fixed enumeration order) and continue. -/
def runSearch (g : CostGrid) (endN : Node) : ℕ → SState → Option SState
  | 0, _ => none
  | fuel + 1, st =>
    match popMin st.frontier with
    | none => none
    | some (e, rest) =>
      if (st.dist e.node).isSome then
        runSearch g endN fuel { st with frontier := rest }
      else
        if e.node = endN then some (finState st e rest)
        else runSearch g endN fuel (contState g st e rest)

/-- Helper for `walk`: dispatch on the recorded predecessor of the current cell. -/
def walkAux (pred : Node → Option Node) : Option Node → ℕ → Node → List Node
  | none, _, v => [v]
  | some _, 0, v => [v]
  | some u, f + 1, v => v :: walkAux pred (pred u) f u

/-- Walk the predecessor map from a cell back to the start (fuelled). -/
def walk (pred : Node → Option Node) (fuel : ℕ) (v : Node) : List Node :=
  walkAux pred (pred v) fuel v

/-- Fuel amply covering every frontier pop: at most `1 + 8·h·w` entries are ever
inserted, and each iteration pops exactly one. -/
def searchFuel (g : CostGrid) : ℕ := 9 * (g.h * g.w) + 2

/-- Initial state: only the start cell is on the frontier, at accumulated cost 0. -/
def initState (s : Node) : SState :=
  { dist := fun _ => none, pred := fun _ => none, time := fun _ => none,
    tcnt := 0, frontier := [⟨0, 0, s, none⟩], cnt := 1 }

/-- Modelled from the spec (§4.4, LeastCostPathSearcher; the notebook delegates this
to the external `skimage.graph.route_through_array`, whose source is not part of this
repository): Dijkstra-style frontier expansion over the implicit 8-connected grid
graph, priority keyed by accumulated cost with insertion-order tie-breaking, each cell
finalized at most once, terminating as soon as the end cell is finalized; the path is
reconstructed by walking predecessors from the end and reversing.  Returns `none`
(InvalidInput) when an endpoint is out of bounds. -/
def search (g : CostGrid) (s e : Node) : Option (List Node × Q2) :=
  if inBounds g s ∧ inBounds g e then
    match runSearch g e (searchFuel g) (initState s) with
    | none => none
    | some st =>
      match st.dist e with
      | none => none
      | some d => some ((walk st.pred (g.h * g.w) e).reverse, d)
  else none

/-! ## Basic lemmas: edges, paths, the frontier pop, the pushed entries -/

theorem toR_pair_fst (q : ℚ) : Q2.toR (q, 0) = (q : ℝ) := by simp [Q2.toR]

theorem toR_pair_snd (q : ℚ) : Q2.toR (0, q) = (q : ℝ) * Real.sqrt 2 := by simp [Q2.toR]

theorem isDiag_symm (u v : Node) : isDiag u v ↔ isDiag v u := by
  unfold isDiag
  constructor <;> rintro ⟨h1, h2⟩ <;> exact ⟨Ne.symm h1, Ne.symm h2⟩

theorem edgeW_symm (g : CostGrid) (u v : Node) : edgeW g u v = edgeW g v u := by
  unfold edgeW
  rw [add_comm (g.cost u.1 u.2)]
  by_cases h : isDiag u v
  · rw [if_pos h, if_pos ((isDiag_symm u v).mp h)]
  · rw [if_neg h, if_neg (fun h' => h ((isDiag_symm v u).mp h'))]

theorem edgeW_nonneg (g : CostGrid) (u v : Node)
    (hu : 0 ≤ g.cost u.1 u.2) (hv : 0 ≤ g.cost v.1 v.2) : 0 ≤ (edgeW g u v).toR := by
  have havg : 0 ≤ ((g.cost u.1 u.2 + g.cost v.1 v.2) / 2 : ℚ) :=
    div_nonneg (add_nonneg hu hv) (by norm_num)
  have havg' : (0 : ℝ) ≤ ((g.cost u.1 u.2 + g.cost v.1 v.2) / 2 : ℚ) := by exact_mod_cast havg
  unfold edgeW
  split_ifs
  · rw [toR_pair_snd]
    exact mul_nonneg havg' (Real.sqrt_nonneg 2)
  · rw [toR_pair_fst]
    exact havg'

theorem adj_symm {u v : Node} (h : Adj u v) : Adj v u := by
  obtain ⟨hne, h1, h2, h3, h4⟩ := h
  exact ⟨Ne.symm hne, h2, h1, h4, h3⟩

theorem validPath_singleton (g : CostGrid) (s : Node) (hs : inBounds g s) :
    ValidPath g s s [s] := by
  refine ⟨rfl, rfl, ?_, ?_⟩
  · simp
  · intro v hv
    rw [List.mem_singleton] at hv
    exact hv ▸ hs

theorem validPath_cons (g : CostGrid) {s e a b : Node} {p : List Node}
    (h : ValidPath g s e (a :: b :: p)) :
    a = s ∧ Adj a b ∧ inBounds g a ∧ ValidPath g b e (b :: p) := by
  obtain ⟨hh, hl, hc, hm⟩ := h
  rw [List.head?_cons, Option.some.injEq] at hh
  rw [List.getLast?_cons_cons] at hl
  rw [List.chain'_cons] at hc
  exact ⟨hh, hc.1, hm a (by simp), rfl, hl, hc.2, fun v hv => hm v (List.mem_cons_of_mem _ hv)⟩

theorem pathCost_cons (g : CostGrid) (a b : Node) (p : List Node) :
    pathCost g (a :: b :: p) = edgeW g a b + pathCost g (b :: p) := rfl

theorem pathCost_nonneg (g : CostGrid)
    (hpos : ∀ r c, r < g.h → c < g.w → 0 ≤ g.cost r c) :
    ∀ (p : List Node) (s e : Node), ValidPath g s e p → 0 ≤ (pathCost g p).toR
  | [], _, _, h => absurd h.1 (by simp)
  | [_], _, _, _ => by
    unfold pathCost
    rw [Q2.toR_zero]
  | a :: b :: rest, s, e, h => by
    obtain ⟨_, hab, ha, htail⟩ := validPath_cons g h
    have hb : inBounds g b := htail.2.2.2 b (by simp)
    have h1 := edgeW_nonneg g a b (hpos _ _ ha.1 ha.2) (hpos _ _ hb.1 hb.2)
    have h2 := pathCost_nonneg g hpos (b :: rest) b e htail
    rw [pathCost_cons, Q2.toR_add]
    linarith

theorem pathCost_snoc (g : CostGrid) :
    ∀ (p : List Node) (u v : Node), p.getLast? = some u →
      pathCost g (p ++ [v]) = pathCost g p + edgeW g u v
  | [], _, _, h => absurd h (by simp)
  | [a], u, v, h => by
    rw [show ([a] : List Node).getLast? = some a from rfl, Option.some.injEq] at h
    rw [← h]
    show pathCost g [a, v] = pathCost g [a] + edgeW g a v
    simp only [pathCost]
    rw [add_zero, zero_add]
  | a :: b :: rest, u, v, h => by
    rw [List.getLast?_cons_cons] at h
    show pathCost g (a :: b :: (rest ++ [v])) = pathCost g (a :: b :: rest) + edgeW g u v
    rw [pathCost_cons, pathCost_cons,
      show b :: (rest ++ [v]) = (b :: rest) ++ [v] from rfl,
      pathCost_snoc g (b :: rest) u v h, add_assoc]

theorem validPath_snoc (g : CostGrid) {s u v : Node} {p : List Node}
    (h : ValidPath g s u p) (ha : Adj u v) (hv : inBounds g v) :
    ValidPath g s v (p ++ [v]) := by
  obtain ⟨hh, hl, hc, hm⟩ := h
  refine ⟨?_, ?_, ?_, ?_⟩
  · cases p with
    | nil => exact absurd hh (by simp)
    | cons x xs => simpa using hh
  · exact List.getLast?_concat _
  · refine List.Chain'.append hc (by simp) ?_
    intro x hx y hy
    rw [hl, Option.mem_def, Option.some.injEq] at hx
    rw [List.head?_cons, Option.mem_def, Option.some.injEq] at hy
    rw [← hx, ← hy]
    exact ha
  · intro x hx
    rcases List.mem_append.mp hx with h1 | h1
    · exact hm x h1
    · rw [List.mem_singleton] at h1
      exact h1 ▸ hv

theorem validPath_reverse (g : CostGrid) {s e : Node} {p : List Node}
    (h : ValidPath g s e p) : ValidPath g e s p.reverse := by
  obtain ⟨hh, hl, hc, hm⟩ := h
  refine ⟨?_, ?_, ?_, ?_⟩
  · rw [List.head?_reverse]
    exact hl
  · rw [List.getLast?_reverse]
    exact hh
  · rw [List.chain'_reverse]
    exact hc.imp (fun a b hab => adj_symm hab)
  · intro v hv
    exact hm v (List.mem_reverse.mp hv)

theorem pathCost_reverse (g : CostGrid) :
    ∀ p : List Node, pathCost g p.reverse = pathCost g p
  | [] => rfl
  | [_] => rfl
  | a :: b :: rest => by
    have h1 : (a :: b :: rest).reverse = (b :: rest).reverse ++ [a] := by
      simp
    have h2 : (b :: rest).reverse.getLast? = some b := by
      rw [List.getLast?_reverse]
      rfl
    rw [h1, pathCost_snoc g _ b a h2, pathCost_reverse g (b :: rest), pathCost_cons,
      edgeW_symm g b a, add_comm]

/-! ### Lemmas about the frontier pop -/

theorem better_irrefl (e : Entry) : ¬ better e e := by
  unfold better Q2.lt
  simp

theorem notBetter_le {e₁ e₂ : Entry} (h : ¬ better e₁ e₂) : Q2.le e₂.key e₁.key := by
  unfold better at h
  push_neg at h
  unfold Q2.lt at h
  unfold Q2.le
  exact not_lt.mp h.1

theorem better_asymm {a b : Entry} (h : better a b) : ¬ better b a := by
  intro h'
  unfold better Q2.lt at h h'
  rcases h with h1 | ⟨hk, hc⟩ <;> rcases h' with h2 | ⟨hk', hc'⟩
  · linarith
  · rw [hk'] at h1
    exact lt_irrefl _ h1
  · rw [hk] at h2
    exact lt_irrefl _ h2
  · omega

theorem notBetter_trans {a b c : Entry} (hba : ¬ better b a) (hcb : ¬ better c b) :
    ¬ better c a := by
  intro hca
  have h1 : Q2.le a.key b.key := notBetter_le hba
  have h2 : Q2.le b.key c.key := notBetter_le hcb
  unfold Q2.le at h1 h2
  unfold better Q2.lt at hba hcb hca
  push_neg at hba hcb
  rcases hca with hlt | ⟨hkey, hcnt⟩
  · linarith
  · have hra : a.key.toR = c.key.toR := by rw [hkey]
    have hb_a : b.key = a.key := Q2.toR_inj (le_antisymm (by linarith) h1)
    have hc_b : c.key = b.key := Q2.toR_inj (le_antisymm (by linarith) h2)
    have n1 := hba.2 hb_a
    have n2 := hcb.2 hc_b
    omega

theorem popMin_eq_none : ∀ {l : List Entry}, popMin l = none ↔ l = []
  | [] => by simp [popMin]
  | e :: rest => by
    constructor
    · intro h
      exfalso
      rw [popMin] at h
      rcases hr : popMin rest with _ | ⟨b, r'⟩ <;> rw [hr] at h
      · exact Option.noConfusion h
      · dsimp only at h
        split_ifs at h
    · intro h
      exact List.noConfusion h

theorem popMin_perm : ∀ {l : List Entry} {e : Entry} {r : List Entry},
    popMin l = some (e, r) → l.Perm (e :: r)
  | [], e, r, h => by simp [popMin] at h
  | a :: rest, e, r, h => by
    rw [popMin] at h
    rcases hr : popMin rest with _ | ⟨b, r'⟩ <;> rw [hr] at h
    · simp only [Option.some.injEq, Prod.mk.injEq] at h
      obtain ⟨rfl, rfl⟩ := h
      rw [popMin_eq_none.mp hr]
    · dsimp only at h
      split_ifs at h with hb <;>
        simp only [Option.some.injEq, Prod.mk.injEq] at h
      · obtain ⟨rfl, rfl⟩ := h
        exact ((popMin_perm hr).cons a).trans (List.Perm.swap _ _ _)
      · obtain ⟨rfl, rfl⟩ := h
        exact List.Perm.refl _

theorem popMin_min : ∀ {l : List Entry} {e : Entry} {r : List Entry},
    popMin l = some (e, r) → ∀ e' ∈ l, ¬ better e' e
  | [], e, r, h => by simp [popMin] at h
  | a :: rest, e, r, h => by
    rw [popMin] at h
    rcases hr : popMin rest with _ | ⟨b, r'⟩ <;> rw [hr] at h
    · simp only [Option.some.injEq, Prod.mk.injEq] at h
      obtain ⟨rfl, rfl⟩ := h
      intro e' he'
      rw [popMin_eq_none.mp hr] at he'
      rw [List.mem_singleton] at he'
      subst he'
      exact better_irrefl e'
    · dsimp only at h
      split_ifs at h with hb <;>
        simp only [Option.some.injEq, Prod.mk.injEq] at h
      · obtain ⟨rfl, rfl⟩ := h
        intro e' he'
        rcases List.mem_cons.mp he' with rfl | h'
        · exact better_asymm hb
        · exact popMin_min hr e' h'
      · obtain ⟨rfl, rfl⟩ := h
        intro e' he'
        rcases List.mem_cons.mp he' with rfl | h'
        · exact better_irrefl e'
        · exact notBetter_trans hb (popMin_min hr e' h')

theorem popMin_mem {l : List Entry} {e : Entry} {r : List Entry}
    (h : popMin l = some (e, r)) : e ∈ l :=
  (popMin_perm h).mem_iff.mpr (by simp)

/-! ### Lemmas about the pushed entries -/

theorem mkPushes_sound (g : CostGrid) (v : Node) (k : Q2) :
    ∀ (us : List Node) (n : ℕ) (x : Entry), x ∈ mkPushes g v k us n →
      x.node ∈ us ∧ x.key = k + edgeW g v x.node ∧ x.pred = some v
  | [], _, x, h => absurd h (List.not_mem_nil x)
  | u :: us, n, x, h => by
    rcases List.mem_cons.mp h with h' | h'
    · subst h'
      exact ⟨by simp, rfl, rfl⟩
    · obtain ⟨h1, h2, h3⟩ := mkPushes_sound g v k us (n + 1) x h'
      exact ⟨List.mem_cons_of_mem _ h1, h2, h3⟩

theorem mkPushes_complete (g : CostGrid) (v : Node) (k : Q2) :
    ∀ (us : List Node) (n : ℕ) (u : Node), u ∈ us →
      ∃ x ∈ mkPushes g v k us n, x.node = u ∧ x.key = k + edgeW g v u
  | [], _, u, h => absurd h (List.not_mem_nil u)
  | u' :: us, n, u, h => by
    rcases List.mem_cons.mp h with rfl | h'
    · exact ⟨⟨k + edgeW g v u, n, u, some v⟩, by simp [mkPushes], rfl, rfl⟩
    · obtain ⟨x, hx, h1, h2⟩ := mkPushes_complete g v k us (n + 1) u h'
      exact ⟨x, List.mem_cons_of_mem _ hx, h1, h2⟩

theorem mkPushes_length (g : CostGrid) (v : Node) (k : Q2) :
    ∀ (us : List Node) (n : ℕ), (mkPushes g v k us n).length = us.length
  | [], _ => rfl
  | _ :: us, n => by
    rw [mkPushes, List.length_cons, List.length_cons, mkPushes_length g v k us (n + 1)]

/-! ## Invariants of the search loop -/

/-- The finset of all valid indices of `g`. -/
def gridFinset (g : CostGrid) : Finset Node := Finset.range g.h ×ˢ Finset.range g.w

theorem mem_gridFinset (g : CostGrid) (v : Node) : v ∈ gridFinset g ↔ inBounds g v := by
  unfold gridFinset inBounds
  rw [Finset.mem_product, Finset.mem_range, Finset.mem_range]

/-- Map invariant: recorded distances, predecessors and timestamps form a consistent
tree fragment rooted at the start, with strictly increasing finalization timestamps
along predecessor edges. -/
structure InvD (g : CostGrid) (s : Node) (st : SState) : Prop where
  dist_node : ∀ v, (st.dist v).isSome → inBounds g v
  dist_time : ∀ v, (st.dist v).isSome ↔ (st.time v).isSome
  dist_pred : ∀ v dv, st.dist v = some dv →
    (st.pred v = none → v = s ∧ dv = 0) ∧
    (∀ u, st.pred v = some u → ∃ du tu tv, st.dist u = some du ∧ Adj u v ∧
      dv = du + edgeW g u v ∧ st.time u = some tu ∧ st.time v = some tv ∧ tu < tv)
  time_lt : ∀ v t, st.time v = some t → t < st.tcnt
  tcnt_card : st.tcnt = ((gridFinset g).filter (fun v => (st.dist v).isSome)).card

/-- Frontier invariant: entries are sound (in-bounds, keyed by a finalized neighbor's
distance plus the edge weight, or the zero-keyed start entry), and the frontier covers
the start (until finalized) and every edge out of a finalized cell into a
not-yet-finalized one. -/
structure InvF (g : CostGrid) (s : Node) (st : SState) : Prop where
  front_node : ∀ e ∈ st.frontier, inBounds g e.node
  front_pred : ∀ e ∈ st.frontier,
    (e.pred = none → e.node = s ∧ e.key = 0) ∧
    (∀ u, e.pred = some u → ∃ du, st.dist u = some du ∧ Adj u e.node ∧
      e.key = du + edgeW g u e.node)
  cover_start : ¬ (st.dist s).isSome → ∃ e ∈ st.frontier, e.node = s ∧ e.key = 0
  cover : ∀ u v du, st.dist u = some du → Adj u v → inBounds g v →
    ¬ (st.dist v).isSome →
    ∃ e ∈ st.frontier, e.node = v ∧ e.key = du + edgeW g u v

/-- Optimality invariant: every recorded distance is a lower bound for the cost of
every valid path from the start to that cell. -/
def Opt (g : CostGrid) (s : Node) (st : SState) : Prop :=
  ∀ v dv, st.dist v = some dv → ∀ p, ValidPath g s v p → dv.toR ≤ (pathCost g p).toR

theorem upd_self {β : Type} (f : Node → β) (v : Node) (b : β) : upd f v b v = b := by
  simp [upd]

theorem upd_ne {β : Type} (f : Node → β) (v : Node) (b : β) {x : Node} (h : x ≠ v) :
    upd f v b x = f x := by
  simp [upd, h]

theorem invD_init (g : CostGrid) (s : Node) : InvD g s (initState s) := by
  constructor <;> simp [initState]

theorem invF_init (g : CostGrid) (s : Node) (hs : inBounds g s) :
    InvF g s (initState s) := by
  constructor
  · intro e he
    rw [show (initState s).frontier = [⟨0, 0, s, none⟩] from rfl, List.mem_singleton] at he
    subst he
    exact hs
  · intro e he
    rw [show (initState s).frontier = [⟨0, 0, s, none⟩] from rfl, List.mem_singleton] at he
    subst he
    exact ⟨fun _ => ⟨rfl, rfl⟩, fun u hu => Option.noConfusion hu⟩
  · intro _
    exact ⟨⟨0, 0, s, none⟩, by simp [initState], rfl, rfl⟩
  · intro u v du hdu
    exact absurd hdu (by simp [initState])

theorem opt_init (g : CostGrid) (s : Node) : Opt g s (initState s) := by
  intro v dv hdv
  exact absurd hdv (by simp [initState])

/-! ### Preservation under discarding a stale entry -/

theorem mem_of_mem_rest {st : SState} {e : Entry} {rest : List Entry}
    (hpop : popMin st.frontier = some (e, rest)) {x : Entry} (hx : x ∈ rest) :
    x ∈ st.frontier :=
  (popMin_perm hpop).mem_iff.mpr (List.mem_cons_of_mem _ hx)

theorem mem_rest_of_ne {st : SState} {e : Entry} {rest : List Entry}
    (hpop : popMin st.frontier = some (e, rest)) {x : Entry} (hx : x ∈ st.frontier)
    (hne : x ≠ e) : x ∈ rest := by
  rcases List.mem_cons.mp ((popMin_perm hpop).mem_iff.mp hx) with h | h
  · exact absurd h hne
  · exact h

theorem invD_discard (g : CostGrid) (s : Node) (st : SState) (rest : List Entry)
    (hD : InvD g s st) : InvD g s { st with frontier := rest } :=
  ⟨hD.dist_node, hD.dist_time, hD.dist_pred, hD.time_lt, hD.tcnt_card⟩

theorem invF_discard (g : CostGrid) (s : Node) (st : SState) (hF : InvF g s st)
    {e : Entry} {rest : List Entry} (hpop : popMin st.frontier = some (e, rest))
    (hfin : (st.dist e.node).isSome) : InvF g s { st with frontier := rest } := by
  constructor
  · intro x hx
    exact hF.front_node x (mem_of_mem_rest hpop hx)
  · intro x hx
    exact hF.front_pred x (mem_of_mem_rest hpop hx)
  · intro hs
    obtain ⟨e0, he0, h1, h2⟩ := hF.cover_start hs
    refine ⟨e0, mem_rest_of_ne hpop he0 ?_, h1, h2⟩
    intro heq
    rw [heq] at h1
    rw [h1] at hfin
    exact hs hfin
  · intro u v du hdu hadj hbv hv
    obtain ⟨e0, he0, h1, h2⟩ := hF.cover u v du hdu hadj hbv hv
    refine ⟨e0, mem_rest_of_ne hpop he0 ?_, h1, h2⟩
    intro heq
    rw [heq] at h1
    rw [h1] at hfin
    exact hv hfin

theorem opt_discard (g : CostGrid) (s : Node) (st : SState) (rest : List Entry)
    (hO : Opt g s st) : Opt g s { st with frontier := rest } := hO

/-! ### The cut argument: the popped minimal key is optimal -/

theorem validPath_cons_of (g : CostGrid) {a b e : Node} {p : List Node}
    (hp : ValidPath g b e p) (hab : Adj a b) (ha : inBounds g a) :
    ValidPath g a e (a :: p) := by
  obtain ⟨hh, hl, hc, hm⟩ := hp
  cases p with
  | nil => exact absurd hh (by simp)
  | cons x xs =>
    rw [List.head?_cons, Option.some.injEq] at hh
    subst hh
    refine ⟨rfl, ?_, ?_, ?_⟩
    · rw [List.getLast?_cons_cons]
      exact hl
    · rw [List.chain'_cons]
      exact ⟨hab, hc⟩
    · intro v hv
      rcases List.mem_cons.mp hv with rfl | hv'
      · exact ha
      · exact hm v hv'

theorem pathCost_cons_head (g : CostGrid) {a b : Node} {p : List Node}
    (h : p.head? = some b) :
    pathCost g (a :: p) = edgeW g a b + pathCost g p := by
  cases p with
  | nil => exact absurd h (by simp)
  | cons x xs =>
    rw [List.head?_cons, Option.some.injEq] at h
    subst h
    rfl

theorem first_unfinalized (g : CostGrid) (st : SState)
    (hpos : ∀ r c, r < g.h → c < g.w → 0 ≤ g.cost r c) :
    ∀ (p : List Node) (a b : Node), ValidPath g a b p → (st.dist a).isSome →
      st.dist b = none →
      ∃ u z p₁ du, ValidPath g a u p₁ ∧ st.dist u = some du ∧ st.dist z = none ∧
        Adj u z ∧ inBounds g z ∧
        (pathCost g p₁ + edgeW g u z).toR ≤ (pathCost g p).toR
  | [], a, b, hp, _, _ => absurd hp.1 (by simp)
  | [x], a, b, hp, ha, hb => by
    exfalso
    have h1 : x = a := by
      have := hp.1
      rw [List.head?_cons, Option.some.injEq] at this
      exact this
    have h2 : x = b := by
      have := hp.2.1
      rw [show ([x] : List Node).getLast? = some x from rfl, Option.some.injEq] at this
      exact this
    rw [h1] at h2
    rw [← h2] at hb
    rw [hb] at ha
    simp at ha
  | x :: y :: rest, a, b, hp, ha, hb => by
    obtain ⟨rfl, hxy, hbx, htail⟩ := validPath_cons g hp
    by_cases hy : (st.dist y).isSome
    · obtain ⟨u, z, p₁, du, hvp, hdu, hdz, hadj, hbz, hle⟩ :=
        first_unfinalized g st hpos (y :: rest) y b htail hy hb
      refine ⟨u, z, x :: p₁, du, validPath_cons_of g hvp hxy hbx, hdu, hdz, hadj, hbz, ?_⟩
      have hhead : p₁.head? = some y := hvp.1
      rw [pathCost_cons_head g hhead, pathCost_cons g, Q2.toR_add, Q2.toR_add, Q2.toR_add]
      rw [Q2.toR_add] at hle
      linarith
    · obtain ⟨dx, hdx⟩ := Option.isSome_iff_exists.mp ha
      have hy' : st.dist y = none := Option.not_isSome_iff_eq_none.mp hy
      have hby : inBounds g y := htail.2.2.2 y (by simp)
      refine ⟨x, y, [x], dx, validPath_singleton g x hbx, hdx, hy', hxy, hby, ?_⟩
      have h0 : pathCost g ([x] : List Node) = 0 := rfl
      have htc : 0 ≤ (pathCost g (y :: rest)).toR :=
        pathCost_nonneg g hpos (y :: rest) y b htail
      rw [h0, pathCost_cons g, Q2.toR_add, Q2.toR_add, Q2.toR_zero]
      linarith

theorem popped_key_min (g : CostGrid) (s : Node) (st : SState)
    (hF : InvF g s st) (hO : Opt g s st)
    (hpos : ∀ r c, r < g.h → c < g.w → 0 ≤ g.cost r c)
    {e : Entry} {rest : List Entry} (hpop : popMin st.frontier = some (e, rest))
    (hunf : st.dist e.node = none)
    {p : List Node} (hp : ValidPath g s e.node p) :
    e.key.toR ≤ (pathCost g p).toR := by
  by_cases hs : (st.dist s).isSome
  · obtain ⟨u, z, p₁, du, hvp, hdu, hdz, hadj, hbz, hle⟩ :=
      first_unfinalized g st hpos p s e.node hp hs hunf
    obtain ⟨ez, hez, heznode, hezkey⟩ :=
      hF.cover u z du hdu hadj hbz (by rw [hdz]; simp)
    have h2 := notBetter_le (popMin_min hpop ez hez)
    unfold Q2.le at h2
    have h3 : ez.key.toR = du.toR + (edgeW g u z).toR := by rw [hezkey, Q2.toR_add]
    have h4 : du.toR ≤ (pathCost g p₁).toR := hO u du hdu p₁ hvp
    rw [Q2.toR_add] at hle
    linarith
  · obtain ⟨e0, he0, h0node, h0key⟩ := hF.cover_start hs
    have h1 := notBetter_le (popMin_min hpop e0 he0)
    unfold Q2.le at h1
    have h2 : e0.key.toR = 0 := by rw [h0key, Q2.toR_zero]
    have h3 : 0 ≤ (pathCost g p).toR := pathCost_nonneg g hpos p s e.node hp
    linarith

/-! ### Preservation under finalizing the popped entry -/

theorem finState_dist_self (st : SState) (e : Entry) (rest : List Entry) :
    (finState st e rest).dist e.node = some e.key := upd_self _ _ _

theorem finState_dist_ne (st : SState) (e : Entry) (rest : List Entry) {v : Node}
    (h : v ≠ e.node) : (finState st e rest).dist v = st.dist v := upd_ne _ _ _ h

theorem finState_pred_self (st : SState) (e : Entry) (rest : List Entry) :
    (finState st e rest).pred e.node = e.pred := upd_self _ _ _

theorem finState_pred_ne (st : SState) (e : Entry) (rest : List Entry) {v : Node}
    (h : v ≠ e.node) : (finState st e rest).pred v = st.pred v := upd_ne _ _ _ h

theorem finState_time_self (st : SState) (e : Entry) (rest : List Entry) :
    (finState st e rest).time e.node = some st.tcnt := upd_self _ _ _

theorem finState_time_ne (st : SState) (e : Entry) (rest : List Entry) {v : Node}
    (h : v ≠ e.node) : (finState st e rest).time v = st.time v := upd_ne _ _ _ h

theorem contState_frontier (g : CostGrid) (st : SState) (e : Entry) (rest : List Entry) :
    (contState g st e rest).frontier =
      rest ++ mkPushes g e.node e.key (relaxTargets g st e.node) st.cnt := rfl

theorem invD_finalize (g : CostGrid) (s : Node) (st : SState)
    (hD : InvD g s st) (hF : InvF g s st) {e : Entry} {rest : List Entry}
    (hpop : popMin st.frontier = some (e, rest)) (hunf : st.dist e.node = none) :
    InvD g s (finState st e rest) := by
  have hbe : inBounds g e.node := hF.front_node e (popMin_mem hpop)
  constructor
  · -- dist_node
    intro v hv
    by_cases hve : v = e.node
    · exact hve ▸ hbe
    · rw [finState_dist_ne st e rest hve] at hv
      exact hD.dist_node v hv
  · -- dist_time
    intro v
    by_cases hve : v = e.node
    · subst hve
      rw [finState_dist_self, finState_time_self]
      simp
    · rw [finState_dist_ne st e rest hve, finState_time_ne st e rest hve]
      exact hD.dist_time v
  · -- dist_pred
    intro v dv hdv
    by_cases hve : v = e.node
    · subst hve
      rw [finState_dist_self] at hdv
      have hkey : e.key = dv := Option.some.inj hdv
      obtain ⟨hp1, hp2⟩ := hF.front_pred e (popMin_mem hpop)
      constructor
      · intro hpn
        rw [finState_pred_self] at hpn
        obtain ⟨hns, hk0⟩ := hp1 hpn
        exact ⟨hns, by rw [← hkey, hk0]⟩
      · intro u hpu
        rw [finState_pred_self] at hpu
        obtain ⟨du, hdu, hadj, hkeyeq⟩ := hp2 u hpu
        have hune : u ≠ e.node := by
          intro h
          rw [h, hunf] at hdu
          exact Option.noConfusion hdu
        have htu' : (st.time u).isSome := (hD.dist_time u).mp (by rw [hdu]; rfl)
        obtain ⟨tu, htu⟩ := Option.isSome_iff_exists.mp htu'
        refine ⟨du, tu, st.tcnt, ?_, hadj, ?_, ?_, ?_, ?_⟩
        · rw [finState_dist_ne st e rest hune]
          exact hdu
        · rw [← hkey, hkeyeq]
        · rw [finState_time_ne st e rest hune]
          exact htu
        · exact finState_time_self st e rest
        · exact hD.time_lt u tu htu
    · rw [finState_dist_ne st e rest hve] at hdv
      obtain ⟨hp1, hp2⟩ := hD.dist_pred v dv hdv
      constructor
      · intro hpn
        rw [finState_pred_ne st e rest hve] at hpn
        exact hp1 hpn
      · intro u hpu
        rw [finState_pred_ne st e rest hve] at hpu
        obtain ⟨du, tu, tv, hdu, hadj, hkeq, htu, htv, hlt⟩ := hp2 u hpu
        have hune : u ≠ e.node := by
          intro h
          rw [h, hunf] at hdu
          exact Option.noConfusion hdu
        refine ⟨du, tu, tv, ?_, hadj, hkeq, ?_, ?_, hlt⟩
        · rw [finState_dist_ne st e rest hune]
          exact hdu
        · rw [finState_time_ne st e rest hune]
          exact htu
        · rw [finState_time_ne st e rest hve]
          exact htv
  · -- time_lt
    intro v t htv
    show t < st.tcnt + 1
    by_cases hve : v = e.node
    · subst hve
      rw [finState_time_self] at htv
      have := Option.some.inj htv
      omega
    · rw [finState_time_ne st e rest hve] at htv
      have := hD.time_lt v t htv
      omega
  · -- tcnt_card
    show st.tcnt + 1 = _
    have hset : ((gridFinset g).filter (fun v => ((finState st e rest).dist v).isSome)) =
        insert e.node ((gridFinset g).filter (fun v => (st.dist v).isSome)) := by
      ext x
      simp only [Finset.mem_filter, Finset.mem_insert]
      constructor
      · rintro ⟨hxg, hx⟩
        by_cases hxe : x = e.node
        · exact Or.inl hxe
        · rw [finState_dist_ne st e rest hxe] at hx
          exact Or.inr ⟨hxg, hx⟩
      · rintro (rfl | ⟨hxg, hx⟩)
        · refine ⟨(mem_gridFinset g _).mpr hbe, ?_⟩
          rw [finState_dist_self]
          rfl
        · refine ⟨hxg, ?_⟩
          by_cases hxe : x = e.node
          · rw [hxe, finState_dist_self]
            rfl
          · rw [finState_dist_ne st e rest hxe]
            exact hx
    have hnm : e.node ∉ (gridFinset g).filter (fun v => (st.dist v).isSome) := by
      rw [Finset.mem_filter]
      rintro ⟨-, habs⟩
      rw [hunf] at habs
      simp at habs
    rw [hset, Finset.card_insert_of_not_mem hnm, ← hD.tcnt_card]

theorem invD_finalize_cont (g : CostGrid) (s : Node) (st : SState)
    (hD : InvD g s st) (hF : InvF g s st) {e : Entry} {rest : List Entry}
    (hpop : popMin st.frontier = some (e, rest)) (hunf : st.dist e.node = none) :
    InvD g s (contState g st e rest) := by
  obtain ⟨a, b, c, d, f⟩ := invD_finalize g s st hD hF hpop hunf
  exact ⟨a, b, c, d, f⟩

theorem contState_dist_self (g : CostGrid) (st : SState) (e : Entry) (rest : List Entry) :
    (contState g st e rest).dist e.node = some e.key := upd_self _ _ _

theorem contState_dist_ne (g : CostGrid) (st : SState) (e : Entry) (rest : List Entry)
    {v : Node} (h : v ≠ e.node) : (contState g st e rest).dist v = st.dist v :=
  upd_ne _ _ _ h

theorem invF_finalize (g : CostGrid) (s : Node) (st : SState)
    (_hD : InvD g s st) (hF : InvF g s st) {e : Entry} {rest : List Entry}
    (hpop : popMin st.frontier = some (e, rest)) (hunf : st.dist e.node = none) :
    InvF g s (contState g st e rest) := by
  constructor
  · -- front_node
    intro x hx
    rw [contState_frontier] at hx
    rcases List.mem_append.mp hx with hx | hx
    · exact hF.front_node x (mem_of_mem_rest hpop hx)
    · obtain ⟨hn, -, -⟩ := mkPushes_sound g e.node e.key _ _ x hx
      have hnb : x.node ∈ neighbors g e.node := (List.mem_filter.mp hn).1
      exact ((mem_neighbors g e.node x.node).mp hnb).2
  · -- front_pred
    intro x hx
    rw [contState_frontier] at hx
    rcases List.mem_append.mp hx with hx | hx
    · obtain ⟨h1, h2⟩ := hF.front_pred x (mem_of_mem_rest hpop hx)
      refine ⟨h1, ?_⟩
      intro u hu
      obtain ⟨du, hdu, hadj, hk⟩ := h2 u hu
      have hune : u ≠ e.node := by
        intro h
        rw [h, hunf] at hdu
        exact Option.noConfusion hdu
      refine ⟨du, ?_, hadj, hk⟩
      rw [contState_dist_ne g st e rest hune]
      exact hdu
    · obtain ⟨hn, hk, hp⟩ := mkPushes_sound g e.node e.key _ _ x hx
      have hnb : x.node ∈ neighbors g e.node := (List.mem_filter.mp hn).1
      have hadj := ((mem_neighbors g e.node x.node).mp hnb).1
      refine ⟨fun h0 => absurd h0 (by rw [hp]; simp), ?_⟩
      intro u hu
      rw [hp, Option.some.injEq] at hu
      subst hu
      exact ⟨e.key, contState_dist_self g st e rest, hadj, hk⟩
  · -- cover_start
    intro hs
    have hsne : s ≠ e.node := by
      intro h
      apply hs
      rw [h, contState_dist_self]
      rfl
    rw [contState_dist_ne g st e rest hsne] at hs
    obtain ⟨e0, he0, h1, h2⟩ := hF.cover_start hs
    have h0ne : e0 ≠ e := by
      intro heq
      rw [heq] at h1
      exact hsne h1.symm
    exact ⟨e0, by
      rw [contState_frontier]
      exact List.mem_append_left _ (mem_rest_of_ne hpop he0 h0ne), h1, h2⟩
  · -- cover
    intro u v du hdu hadj hbv hv
    have hvne : v ≠ e.node := by
      intro h
      apply hv
      rw [h, contState_dist_self]
      rfl
    rw [contState_dist_ne g st e rest hvne] at hv
    by_cases hue : u = e.node
    · rw [hue, contState_dist_self] at hdu
      have hdu' : e.key = du := Option.some.inj hdu
      have hadj' : Adj e.node v := hue ▸ hadj
      have hrt : v ∈ relaxTargets g st e.node := by
        unfold relaxTargets
        rw [List.mem_filter]
        refine ⟨(mem_neighbors g e.node v).mpr ⟨hadj', hbv⟩, ?_⟩
        rw [Option.not_isSome_iff_eq_none.mp hv]
        rfl
      obtain ⟨x, hx, hxn, hxk⟩ := mkPushes_complete g e.node e.key _ st.cnt v hrt
      refine ⟨x, ?_, hxn, by rw [hxk, hdu', hue]⟩
      rw [contState_frontier]
      exact List.mem_append_right _ hx
    · rw [contState_dist_ne g st e rest hue] at hdu
      obtain ⟨e0, he0, h1, h2⟩ := hF.cover u v du hdu hadj hbv hv
      have h0ne : e0 ≠ e := by
        intro heq
        apply hvne
        rw [← h1, heq]
      refine ⟨e0, ?_, h1, h2⟩
      rw [contState_frontier]
      exact List.mem_append_left _ (mem_rest_of_ne hpop he0 h0ne)

theorem opt_finalize (g : CostGrid) (s : Node) (st : SState)
    (hF : InvF g s st) (hO : Opt g s st)
    (hpos : ∀ r c, r < g.h → c < g.w → 0 ≤ g.cost r c)
    {e : Entry} {rest : List Entry}
    (hpop : popMin st.frontier = some (e, rest)) (hunf : st.dist e.node = none) :
    Opt g s (finState st e rest) := by
  intro v dv hdv p hp
  by_cases hve : v = e.node
  · subst hve
    rw [finState_dist_self] at hdv
    have hkey : e.key = dv := Option.some.inj hdv
    rw [← hkey]
    exact popped_key_min g s st hF hO hpos hpop hunf hp
  · rw [finState_dist_ne st e rest hve] at hdv
    exact hO v dv hdv p hp

theorem opt_finalize_cont (g : CostGrid) (s : Node) (st : SState)
    (hF : InvF g s st) (hO : Opt g s st)
    (hpos : ∀ r c, r < g.h → c < g.w → 0 ≤ g.cost r c)
    {e : Entry} {rest : List Entry}
    (hpop : popMin st.frontier = some (e, rest)) (hunf : st.dist e.node = none) :
    Opt g s (contState g st e rest) := by
  intro v dv hdv p hp
  exact opt_finalize g s st hF hO hpos hpop hunf v dv hdv p hp

/-! ### The loop: invariant preservation, termination, success -/

theorem runSearch_structural (g : CostGrid) (endN s : Node) :
    ∀ (fuel : ℕ) (st : SState), InvD g s st → InvF g s st →
      ∀ st', runSearch g endN fuel st = some st' →
        InvD g s st' ∧ (st'.dist endN).isSome
  | 0, _, _, _, _, h => Option.noConfusion h
  | fuel + 1, st, hD, hF, st', h => by
    rw [runSearch] at h
    rcases hpop : popMin st.frontier with _ | ⟨e, rest⟩ <;> rw [hpop] at h
    · exact Option.noConfusion h
    · dsimp only at h
      split_ifs at h with hfin hend
      · exact runSearch_structural g endN s fuel _ (invD_discard g s st rest hD)
          (invF_discard g s st hF hpop hfin) st' h
      · have hst' : finState st e rest = st' := Option.some.inj h
        subst hst'
        have hunf : st.dist e.node = none := Option.not_isSome_iff_eq_none.mp hfin
        refine ⟨invD_finalize g s st hD hF hpop hunf, ?_⟩
        rw [← hend, finState_dist_self]
        rfl
      · have hunf : st.dist e.node = none := Option.not_isSome_iff_eq_none.mp hfin
        exact runSearch_structural g endN s fuel _
          (invD_finalize_cont g s st hD hF hpop hunf)
          (invF_finalize g s st hD hF hpop hunf) st' h

theorem runSearch_opt (g : CostGrid) (endN s : Node)
    (hpos : ∀ r c, r < g.h → c < g.w → 0 ≤ g.cost r c) :
    ∀ (fuel : ℕ) (st : SState), InvD g s st → InvF g s st → Opt g s st →
      ∀ st', runSearch g endN fuel st = some st' → Opt g s st'
  | 0, _, _, _, _, _, h => Option.noConfusion h
  | fuel + 1, st, hD, hF, hO, st', h => by
    rw [runSearch] at h
    rcases hpop : popMin st.frontier with _ | ⟨e, rest⟩ <;> rw [hpop] at h
    · exact Option.noConfusion h
    · dsimp only at h
      split_ifs at h with hfin hend
      · exact runSearch_opt g endN s hpos fuel _ (invD_discard g s st rest hD)
          (invF_discard g s st hF hpop hfin) (opt_discard g s st rest hO) st' h
      · have hst' : finState st e rest = st' := Option.some.inj h
        subst hst'
        exact opt_finalize g s st hF hO hpos hpop (Option.not_isSome_iff_eq_none.mp hfin)
      · have hunf : st.dist e.node = none := Option.not_isSome_iff_eq_none.mp hfin
        exact runSearch_opt g endN s hpos fuel _
          (invD_finalize_cont g s st hD hF hpop hunf)
          (invF_finalize g s st hD hF hpop hunf)
          (opt_finalize_cont g s st hF hO hpos hpop hunf) st' h

/-- Count of in-bounds cells not yet finalized. -/
def unfinCard (g : CostGrid) (st : SState) : ℕ :=
  ((gridFinset g).filter (fun v => ¬ (st.dist v).isSome)).card

/-- Loop measure: each iteration strictly decreases it. -/
def loopMeasure (g : CostGrid) (st : SState) : ℕ :=
  st.frontier.length + 9 * unfinCard g st

theorem neighbors_length_le (g : CostGrid) (v : Node) : (neighbors g v).length ≤ 8 := by
  have := List.length_filterMap_le (fun o : ℤ × ℤ =>
    if 0 ≤ (v.1 : ℤ) + o.1 ∧ (v.1 : ℤ) + o.1 < (g.h : ℤ) ∧
        0 ≤ (v.2 : ℤ) + o.2 ∧ (v.2 : ℤ) + o.2 < (g.w : ℤ) then
      some (((v.1 : ℤ) + o.1).toNat, ((v.2 : ℤ) + o.2).toNat)
    else none) nbrOffsets
  exact this.trans (by rw [show nbrOffsets.length = 8 from rfl])

theorem relaxTargets_length_le (g : CostGrid) (st : SState) (v : Node) :
    (relaxTargets g st v).length ≤ 8 :=
  (List.length_filter_le _ _).trans (neighbors_length_le g v)

theorem unfinCard_finalize (g : CostGrid) (st : SState) {e : Entry} (rest : List Entry)
    (hbe : inBounds g e.node) (hunf : st.dist e.node = none) :
    unfinCard g (contState g st e rest) + 1 = unfinCard g st := by
  unfold unfinCard
  have hset : ((gridFinset g).filter (fun v => ¬ ((contState g st e rest).dist v).isSome)) =
      ((gridFinset g).filter (fun v => ¬ (st.dist v).isSome)).erase e.node := by
    ext x
    simp only [Finset.mem_filter, Finset.mem_erase]
    constructor
    · rintro ⟨hxg, hx⟩
      have hxe : x ≠ e.node := by
        intro heq
        rw [heq, contState_dist_self] at hx
        exact hx rfl
      rw [contState_dist_ne g st e rest hxe] at hx
      exact ⟨hxe, hxg, hx⟩
    · rintro ⟨hxe, hxg, hx⟩
      refine ⟨hxg, ?_⟩
      rw [contState_dist_ne g st e rest hxe]
      exact hx
  rw [hset]
  have hmem : e.node ∈ (gridFinset g).filter (fun v => ¬ (st.dist v).isSome) := by
    rw [Finset.mem_filter]
    exact ⟨(mem_gridFinset g _).mpr hbe, by rw [hunf]; simp⟩
  rw [Finset.card_erase_of_mem hmem]
  have := Finset.card_pos.mpr ⟨e.node, hmem⟩
  omega

theorem frontier_len (st : SState) {e : Entry} {rest : List Entry}
    (hpop : popMin st.frontier = some (e, rest)) :
    st.frontier.length = rest.length + 1 := by
  have := (popMin_perm hpop).length_eq
  rw [this, List.length_cons]

theorem frontier_nonempty (g : CostGrid) (s t : Node) (st : SState)
    (hF : InvF g s st)
    (hpos : ∀ r c, r < g.h → c < g.w → 0 ≤ g.cost r c)
    {p : List Node} (hp : ValidPath g s t p) (ht : st.dist t = none) :
    popMin st.frontier ≠ none := by
  intro hnone
  have hemp : st.frontier = [] := popMin_eq_none.mp hnone
  by_cases hs : (st.dist s).isSome
  · obtain ⟨u, z, p₁, du, -, hdu, hdz, hadj, hbz, -⟩ :=
      first_unfinalized g st hpos p s t hp hs ht
    obtain ⟨e0, he0, -, -⟩ := hF.cover u z du hdu hadj hbz (by rw [hdz]; simp)
    rw [hemp] at he0
    exact List.not_mem_nil e0 he0
  · obtain ⟨e0, he0, -, -⟩ := hF.cover_start hs
    rw [hemp] at he0
    exact List.not_mem_nil e0 he0

theorem runSearch_some (g : CostGrid) (s endN : Node)
    (hpos : ∀ r c, r < g.h → c < g.w → 0 ≤ g.cost r c) :
    ∀ (fuel : ℕ) (st : SState), InvD g s st → InvF g s st →
      (∃ p, ValidPath g s endN p) → st.dist endN = none →
      loopMeasure g st < fuel →
      ∃ st', runSearch g endN fuel st = some st'
  | 0, _, _, _, _, _, hm => absurd hm (by omega)
  | fuel + 1, st, hD, hF, hconn, hend, hm => by
    obtain ⟨p, hp⟩ := hconn
    rw [runSearch]
    rcases hpop : popMin st.frontier with _ | ⟨e, rest⟩
    · exact absurd hpop (frontier_nonempty g s endN st hF hpos hp hend)
    · dsimp only
      split_ifs with hfin hendq
      · -- stale entry discarded
        apply runSearch_some g s endN hpos fuel _ (invD_discard g s st rest hD)
          (invF_discard g s st hF hpop hfin) ⟨p, hp⟩ hend
        have hlen := frontier_len st hpop
        have hsame : unfinCard g { st with frontier := rest } = unfinCard g st := rfl
        unfold loopMeasure at hm ⊢
        dsimp only
        rw [hsame]
        omega
      · exact ⟨finState st e rest, rfl⟩
      · have hunf : st.dist e.node = none := Option.not_isSome_iff_eq_none.mp hfin
        have hbe : inBounds g e.node := hF.front_node e (popMin_mem hpop)
        apply runSearch_some g s endN hpos fuel _
          (invD_finalize_cont g s st hD hF hpop hunf)
          (invF_finalize g s st hD hF hpop hunf) ⟨p, hp⟩ ?_ ?_
        · rw [contState_dist_ne g st e rest (by
            intro heq
            exact hendq (heq ▸ rfl))]
          exact hend
        · have hcard := unfinCard_finalize g st rest hbe hunf
          have hlen := frontier_len st hpop
          have hplen : (mkPushes g e.node e.key (relaxTargets g st e.node) st.cnt).length ≤ 8 := by
            rw [mkPushes_length]
            exact relaxTargets_length_le g st e.node
          unfold loopMeasure at hm ⊢
          rw [contState_frontier, List.length_append]
          omega

/-! ### The grid is 8-connected: a valid path always exists -/

theorem exists_validPath_aux (g : CostGrid) :
    ∀ (n : ℕ) (s e : Node), inBounds g s → inBounds g e →
      (max s.1 e.1 - min s.1 e.1) + (max s.2 e.2 - min s.2 e.2) ≤ n →
      ∃ p, ValidPath g s e p
  | n, s, e, hs, he, hd => by
    by_cases hse : s = e
    · exact ⟨[s], hse ▸ validPath_singleton g s hs⟩
    · have hse' : ¬ (s.1 = e.1 ∧ s.2 = e.2) := by
        intro ⟨h1, h2⟩
        exact hse (Prod.ext h1 h2)
      cases n with
      | zero => omega
      | succ m =>
        obtain ⟨r', hr'⟩ : ∃ r' : ℕ,
            (s.1 < e.1 ∧ r' = s.1 + 1) ∨ (e.1 < s.1 ∧ r' + 1 = s.1) ∨
              (s.1 = e.1 ∧ r' = s.1) := by
          rcases Nat.lt_trichotomy s.1 e.1 with h | h | h
          · exact ⟨s.1 + 1, Or.inl ⟨h, rfl⟩⟩
          · exact ⟨s.1, Or.inr (Or.inr ⟨h, rfl⟩)⟩
          · exact ⟨s.1 - 1, Or.inr (Or.inl ⟨h, by omega⟩)⟩
        obtain ⟨c', hc'⟩ : ∃ c' : ℕ,
            (s.2 < e.2 ∧ c' = s.2 + 1) ∨ (e.2 < s.2 ∧ c' + 1 = s.2) ∨
              (s.2 = e.2 ∧ c' = s.2) := by
          rcases Nat.lt_trichotomy s.2 e.2 with h | h | h
          · exact ⟨s.2 + 1, Or.inl ⟨h, rfl⟩⟩
          · exact ⟨s.2, Or.inr (Or.inr ⟨h, rfl⟩)⟩
          · exact ⟨s.2 - 1, Or.inr (Or.inl ⟨h, by omega⟩)⟩
        have hadj : Adj s (r', c') := by
          refine ⟨?_, ?_, ?_, ?_, ?_⟩
          · intro heq
            rw [Prod.ext_iff] at heq
            simp only at heq
            omega
          all_goals simp only
          all_goals omega
        have hbs' : inBounds g (r', c') := by
          obtain ⟨h1, h2⟩ := hs
          obtain ⟨h3, h4⟩ := he
          exact ⟨by omega, by omega⟩
        have hdist : (max r' e.1 - min r' e.1) + (max c' e.2 - min c' e.2) ≤ m := by
          simp only [Nat.max_def, Nat.min_def] at hd ⊢
          split_ifs at hd ⊢ <;> omega
        obtain ⟨p, hp⟩ := exists_validPath_aux g m (r', c') e hbs' he hdist
        exact ⟨s :: p, validPath_cons_of g hp hadj hs⟩

theorem exists_validPath (g : CostGrid) (s e : Node)
    (hs : inBounds g s) (he : inBounds g e) : ∃ p, ValidPath g s e p :=
  exists_validPath_aux g (s.1 + e.1 + s.2 + e.2) s e hs he (by omega)

/-! ### Reconstruction: walking the predecessor map yields a valid optimal path -/

theorem walk_spec (g : CostGrid) (s : Node) (st : SState) (hD : InvD g s st) :
    ∀ (fuel : ℕ) (v : Node) (dv : Q2) (tv : ℕ), st.dist v = some dv →
      st.time v = some tv → tv < fuel →
      ValidPath g s v ((walk st.pred fuel v).reverse) ∧
      pathCost g ((walk st.pred fuel v).reverse) = dv := by
  intro fuel
  induction fuel with
  | zero =>
    intro v dv tv _ _ hlt
    omega
  | succ f ih =>
    intro v dv tv hdv htv hlt
    rcases hpv : st.pred v with _ | u
    · obtain ⟨hvs, hdv0⟩ := (hD.dist_pred v dv hdv).1 hpv
      have hw : walk st.pred (f + 1) v = [v] := by
        rw [walk, hpv]
        rfl
      rw [hw]
      have hbv : inBounds g v := hD.dist_node v (by rw [hdv]; rfl)
      constructor
      · show ValidPath g s v [v].reverse
        rw [List.reverse_singleton]
        rw [hvs]
        exact validPath_singleton g s (hvs ▸ hbv)
      · rw [List.reverse_singleton, hdv0]
        rfl
    · obtain ⟨du, tu, tv', hdu, hadj, hkeq, htu, htv', hltuv⟩ :=
        (hD.dist_pred v dv hdv).2 u hpv
      have htveq : tv' = tv := by
        rw [htv] at htv'
        exact (Option.some.inj htv').symm
      have htuf : tu < f := by omega
      obtain ⟨ihp, ihc⟩ := ih u du tu hdu htu htuf
      have hw : walk st.pred (f + 1) v = v :: walk st.pred f u := by
        rw [walk, hpv, walk]
        rfl
      rw [hw, List.reverse_cons]
      have hbv : inBounds g v := hD.dist_node v (by rw [hdv]; rfl)
      have hlast : (walk st.pred f u).reverse.getLast? = some u := ihp.2.1
      constructor
      · exact validPath_snoc g ihp hadj hbv
      · rw [pathCost_snoc g _ u v hlast, ihc, hkeq]

/-! ### Top-level correctness of the searcher -/

theorem gridFinset_card (g : CostGrid) : (gridFinset g).card = g.h * g.w := by
  unfold gridFinset
  rw [Finset.card_product, Finset.card_range, Finset.card_range]

theorem initial_measure (g : CostGrid) (s : Node) :
    loopMeasure g (initState s) < searchFuel g := by
  have h1 : unfinCard g (initState s) ≤ g.h * g.w := by
    unfold unfinCard
    exact (Finset.card_filter_le _ _).trans (le_of_eq (gridFinset_card g))
  have h2 : (initState s).frontier.length = 1 := rfl
  unfold loopMeasure searchFuel
  omega

/-- Internal summary of a successful search with positive costs: it succeeds, the
returned sequence is a valid path from start to end, the returned total equals the
path's recomputed cost, and no valid path is cheaper. -/
theorem search_correct (g : CostGrid) (s e : Node)
    (hs : inBounds g s) (he : inBounds g e)
    (hpos : ∀ r c, r < g.h → c < g.w → 0 < g.cost r c) :
    ∃ p d, search g s e = some (p, d) ∧ ValidPath g s e p ∧ pathCost g p = d ∧
      ∀ q, ValidPath g s e q → d.toR ≤ (pathCost g q).toR := by
  have hpos' : ∀ r c, r < g.h → c < g.w → 0 ≤ g.cost r c :=
    fun r c hr hc => (hpos r c hr hc).le
  have hD0 := invD_init g s
  have hF0 := invF_init g s hs
  have hO0 := opt_init g s
  by_cases hde : (initState s).dist e = none
  case neg =>
    exact absurd rfl hde
  obtain ⟨st', hrun⟩ := runSearch_some g s e hpos' (searchFuel g) (initState s) hD0 hF0
    (exists_validPath g s e hs he) hde (initial_measure g s)
  obtain ⟨hD', hfin⟩ := runSearch_structural g e s (searchFuel g) (initState s) hD0 hF0 st' hrun
  have hO' := runSearch_opt g e s hpos' (searchFuel g) (initState s) hD0 hF0 hO0 st' hrun
  obtain ⟨d, hd⟩ := Option.isSome_iff_exists.mp hfin
  obtain ⟨tv, htv⟩ := Option.isSome_iff_exists.mp ((hD'.dist_time e).mp hfin)
  have htvlt : tv < g.h * g.w := by
    have h1 := hD'.time_lt e tv htv
    have h2 : st'.tcnt ≤ g.h * g.w := by
      rw [hD'.tcnt_card]
      exact (Finset.card_filter_le _ _).trans (le_of_eq (gridFinset_card g))
    omega
  obtain ⟨hvp, hvc⟩ := walk_spec g s st' hD' (g.h * g.w) e d tv hd htv htvlt
  refine ⟨(walk st'.pred (g.h * g.w) e).reverse, d, ?_, hvp, hvc, ?_⟩
  · unfold search
    rw [if_pos ⟨hs, he⟩, hrun]
    dsimp only
    rw [hd]
  · intro q hq
    exact hO' e d hd q hq

/-! ## Claim theorems for the searcher -/

/-- C1: for every cost grid with positive (hence finite) cell values and every valid
start and end index, the searcher succeeds and returns an in-bounds 8-connected path
from start to end (`ValidPath`) whose total cost — accumulated from edge weights
`((cost a + cost b)/2)·step`, `step = 1` for cardinal and `√2` for diagonal moves
(`edgeW`, `pathCost`) — is minimal among all such paths. -/
theorem search_returns_minimal_cost_path (g : CostGrid) (s e : Node)
    (hs : inBounds g s) (he : inBounds g e)
    (hpos : ∀ r c, r < g.h → c < g.w → 0 < g.cost r c) :
    ∃ p d, search g s e = some (p, d) ∧ ValidPath g s e p ∧ pathCost g p = d ∧
      ∀ q, ValidPath g s e q → d.toR ≤ (pathCost g q).toR :=
  search_correct g s e hs he hpos

/-- A concrete 2×2 grid with all cells at cost 1. -/
def wGridA : CostGrid := ⟨2, 2, fun _ _ => 1⟩

/-- Witness for C1: the hypotheses hold and the guarantee applies on a concrete grid. -/
theorem search_returns_minimal_cost_path_witness :
    (inBounds wGridA (0, 0) ∧ inBounds wGridA (1, 1) ∧
      ∀ r, r < wGridA.h → ∀ c, c < wGridA.w → 0 < wGridA.cost r c) ∧
      (∃ p d, search wGridA (0, 0) (1, 1) = some (p, d) ∧
        ValidPath wGridA (0, 0) (1, 1) p ∧ pathCost wGridA p = d ∧
        ∀ q, ValidPath wGridA (0, 0) (1, 1) q → d.toR ≤ (pathCost wGridA q).toR) :=
  ⟨⟨by decide, by decide, by decide⟩,
    search_returns_minimal_cost_path wGridA (0, 0) (1, 1) (by decide) (by decide)
      (fun r c hr hc =>
        (by decide : ∀ r, r < wGridA.h → ∀ c, c < wGridA.w → 0 < wGridA.cost r c) r hr c hc)⟩

/-- C6: searching from a valid cell to itself returns the single-cell path `[s]`
with total cost exactly 0. -/
theorem search_same_start_end (g : CostGrid) (s : Node) (hs : inBounds g s) :
    search g s s = some ([s], 0) := by
  unfold search
  rw [if_pos ⟨hs, hs⟩]
  rw [show searchFuel g = (9 * (g.h * g.w) + 1) + 1 from rfl, runSearch]
  rw [show popMin (initState s).frontier = some (⟨0, 0, s, none⟩, []) from rfl]
  dsimp only
  rw [if_neg (by simp [initState]), if_pos rfl]
  dsimp only
  rw [show (finState (initState s) ⟨0, 0, s, none⟩ []).dist s = some 0 from upd_self _ _ _]
  dsimp only
  rw [walk, show (finState (initState s) ⟨0, 0, s, none⟩ []).pred s = none from upd_self _ _ _,
    walkAux]
  rfl

/-- Witness for C6 on a concrete grid. -/
theorem search_same_start_end_witness :
    inBounds wGridA (1, 0) ∧ search wGridA (1, 0) (1, 0) = some ([(1, 0)], 0) :=
  ⟨by decide, search_same_start_end wGridA (1, 0) (by decide)⟩

/-- C7: whenever the searcher returns a path, that path starts at `start`, ends at
`end`, consists only of in-bounds cells, and each consecutive pair of cells is
8-adjacent (row and column each change by at most 1, not both 0) — this is
`ValidPath g s e p`. -/
theorem search_path_structure (g : CostGrid) (s e : Node) (p : List Node) (d : Q2)
    (h : search g s e = some (p, d)) : ValidPath g s e p := by
  unfold search at h
  split_ifs at h with hb
  · obtain ⟨hs, he⟩ := hb
    rcases hrun : runSearch g e (searchFuel g) (initState s) with _ | st' <;> rw [hrun] at h
    · exact Option.noConfusion h
    · dsimp only at h
      rcases hd : st'.dist e with _ | dv <;> rw [hd] at h
      · exact Option.noConfusion h
      · simp only [Option.some.injEq, Prod.mk.injEq] at h
        obtain ⟨hp, hdv⟩ := h
        obtain ⟨hD', hfin⟩ := runSearch_structural g e s (searchFuel g) (initState s)
          (invD_init g s) (invF_init g s hs) st' hrun
        obtain ⟨tv, htv⟩ := Option.isSome_iff_exists.mp ((hD'.dist_time e).mp hfin)
        have htvlt : tv < g.h * g.w := by
          have h1 := hD'.time_lt e tv htv
          have h2 : st'.tcnt ≤ g.h * g.w := by
            rw [hD'.tcnt_card]
            exact (Finset.card_filter_le _ _).trans (le_of_eq (gridFinset_card g))
          omega
        obtain ⟨hvp, -⟩ := walk_spec g s st' hD' (g.h * g.w) e dv tv hd htv htvlt
        rw [← hp]
        exact hvp

attribute [local semireducible] Rat.add Rat.mul Rat.sub Rat.inv Rat.ofScientific in
/-- Witness for C7 on a concrete run. -/
theorem search_path_structure_witness :
    search wGridA (0, 0) (1, 1) = some ([(0, 0), (1, 1)], ((0 : ℚ), (1 : ℚ))) ∧
      ValidPath wGridA (0, 0) (1, 1) [(0, 0), (1, 1)] :=
  ⟨by decide,
    search_path_structure wGridA (0, 0) (1, 1) [(0, 0), (1, 1)] ((0 : ℚ), (1 : ℚ))
      (by decide)⟩

/-- A concrete 2×3 grid with all cells at cost 1. -/
def cexGrid : CostGrid := ⟨2, 3, fun _ _ => 1⟩

attribute [local semireducible] Rat.add Rat.mul Rat.sub Rat.inv Rat.ofScientific in
/-- C8 counterexample: on a uniform 2×3 grid of cost 1 there are two minimal
geodesics of cost `1 + √2` between (0,0) and (1,2); the tie is broken by insertion
order separately in each direction, so the path returned from (1,2) to (0,0) is not
the reverse of the one returned from (0,0) to (1,2), though the totals agree. -/
theorem search_swap_not_exact_reverse :
    search cexGrid (0, 0) (1, 2) = some ([(0, 0), (0, 1), (1, 2)], ((1 : ℚ), (1 : ℚ))) ∧
      search cexGrid (1, 2) (0, 0) = some ([(1, 2), (1, 1), (0, 0)], ((1 : ℚ), (1 : ℚ))) ∧
      ([(1, 2), (1, 1), (0, 0)] : List Node).reverse ≠ [(0, 0), (0, 1), (1, 2)] :=
  ⟨by decide, by decide, by decide⟩

/-- C8 amended: swapping start and end on an otherwise identical grid with positive
costs yields a path of identical total cost (the weighting is symmetric), though not
necessarily the exact reversed cell sequence. -/
theorem search_swap_equal_total_cost (g : CostGrid) (a b : Node)
    (ha : inBounds g a) (hb : inBounds g b)
    (hpos : ∀ r c, r < g.h → c < g.w → 0 < g.cost r c) :
    ∃ p₁ d₁ p₂ d₂, search g a b = some (p₁, d₁) ∧ search g b a = some (p₂, d₂) ∧
      d₁.toR = d₂.toR := by
  obtain ⟨p₁, d₁, h₁, hvp₁, hc₁, hmin₁⟩ := search_correct g a b ha hb hpos
  obtain ⟨p₂, d₂, h₂, hvp₂, hc₂, hmin₂⟩ := search_correct g b a hb ha hpos
  refine ⟨p₁, d₁, p₂, d₂, h₁, h₂, ?_⟩
  have hr₁ := hmin₁ p₂.reverse (validPath_reverse g hvp₂)
  rw [pathCost_reverse] at hr₁
  have hr₂ := hmin₂ p₁.reverse (validPath_reverse g hvp₁)
  rw [pathCost_reverse] at hr₂
  have e₁ : (pathCost g p₁).toR = d₁.toR := by rw [hc₁]
  have e₂ : (pathCost g p₂).toR = d₂.toR := by rw [hc₂]
  linarith

/-- Witness for the amended C8 on a concrete grid. -/
theorem search_swap_equal_total_cost_witness :
    (inBounds wGridA (0, 0) ∧ inBounds wGridA (1, 0) ∧
      ∀ r, r < wGridA.h → ∀ c, c < wGridA.w → 0 < wGridA.cost r c) ∧
      (∃ p₁ d₁ p₂ d₂, search wGridA (0, 0) (1, 0) = some (p₁, d₁) ∧
        search wGridA (1, 0) (0, 0) = some (p₂, d₂) ∧ d₁.toR = d₂.toR) :=
  ⟨⟨by decide, by decide, by decide⟩,
    search_swap_equal_total_cost wGridA (0, 0) (1, 0) (by decide) (by decide)
      (fun r c hr hc =>
        (by decide : ∀ r, r < wGridA.h → ∀ c, c < wGridA.w → 0 < wGridA.cost r c) r hr c hc)⟩

/-! ### C9: the output is a pure function of the grid contents and the endpoints -/

theorem neighbors_congr (g₁ g₂ : CostGrid) (hh : g₁.h = g₂.h) (hw : g₁.w = g₂.w)
    (v : Node) : neighbors g₁ v = neighbors g₂ v := by
  unfold neighbors
  rw [hh, hw]

theorem edgeW_congr (g₁ g₂ : CostGrid) (_hh : g₁.h = g₂.h) (_hw : g₁.w = g₂.w)
    (hc : ∀ r c, r < g₁.h → c < g₁.w → g₁.cost r c = g₂.cost r c)
    {u v : Node} (hu : inBounds g₁ u) (hv : inBounds g₁ v) :
    edgeW g₁ u v = edgeW g₂ u v := by
  unfold edgeW
  rw [hc u.1 u.2 hu.1 hu.2, hc v.1 v.2 hv.1 hv.2]

theorem mkPushes_congr (g₁ g₂ : CostGrid) (hh : g₁.h = g₂.h) (hw : g₁.w = g₂.w)
    (hc : ∀ r c, r < g₁.h → c < g₁.w → g₁.cost r c = g₂.cost r c)
    (v : Node) (hv : inBounds g₁ v) (k : Q2) :
    ∀ (us : List Node) (n : ℕ), (∀ u ∈ us, inBounds g₁ u) →
      mkPushes g₁ v k us n = mkPushes g₂ v k us n
  | [], _, _ => rfl
  | u :: us, n, hus => by
    rw [mkPushes, mkPushes, edgeW_congr g₁ g₂ hh hw hc hv (hus u (by simp)),
      mkPushes_congr g₁ g₂ hh hw hc v hv k us (n + 1)
        (fun x hx => hus x (List.mem_cons_of_mem _ hx))]

theorem runSearch_congr (g₁ g₂ : CostGrid) (hh : g₁.h = g₂.h) (hw : g₁.w = g₂.w)
    (hc : ∀ r c, r < g₁.h → c < g₁.w → g₁.cost r c = g₂.cost r c) (endN : Node) :
    ∀ (fuel : ℕ) (st : SState), (∀ e ∈ st.frontier, inBounds g₁ e.node) →
      runSearch g₁ endN fuel st = runSearch g₂ endN fuel st
  | 0, _, _ => rfl
  | fuel + 1, st, hfr => by
    rw [runSearch, runSearch]
    rcases hpop : popMin st.frontier with _ | ⟨e, rest⟩
    · rfl
    · dsimp only
      split_ifs with hfin hend
      · exact runSearch_congr g₁ g₂ hh hw hc endN fuel _
          (fun x hx => hfr x (mem_of_mem_rest hpop hx))
      · rfl
      · have hbe : inBounds g₁ e.node := hfr e (popMin_mem hpop)
        have hrt : relaxTargets g₁ st e.node = relaxTargets g₂ st e.node := by
          unfold relaxTargets
          rw [neighbors_congr g₁ g₂ hh hw e.node]
        have hrtb : ∀ u ∈ relaxTargets g₁ st e.node, inBounds g₁ u := by
          intro u hu
          have hun : u ∈ neighbors g₁ e.node := (List.mem_filter.mp hu).1
          exact ((mem_neighbors g₁ e.node u).mp hun).2
        have hmk : mkPushes g₁ e.node e.key (relaxTargets g₁ st e.node) st.cnt =
            mkPushes g₂ e.node e.key (relaxTargets g₂ st e.node) st.cnt := by
          rw [← hrt]
          exact mkPushes_congr g₁ g₂ hh hw hc e.node hbe e.key _ st.cnt hrtb
        have hstate : contState g₁ st e rest = contState g₂ st e rest := by
          unfold contState
          rw [hmk, hrt]
        rw [hstate]
        apply runSearch_congr g₁ g₂ hh hw hc endN fuel _
        intro x hx
        rw [show (contState g₂ st e rest).frontier =
          rest ++ mkPushes g₂ e.node e.key (relaxTargets g₂ st e.node) st.cnt from rfl] at hx
        rcases List.mem_append.mp hx with hx | hx
        · exact hfr x (mem_of_mem_rest hpop hx)
        · rw [← hmk] at hx
          obtain ⟨hn, -, -⟩ := mkPushes_sound g₁ e.node e.key _ _ x hx
          rw [hrt] at hn
          rw [← hrt] at hn
          exact hrtb x.node hn

/-- C9: the searcher is a pure function of the grid dimensions, the in-bounds cell
costs, and the two endpoints: two grids that agree on those produce identical output
(identical cell sequence and identical total cost); in particular repeated runs on
identical input coincide, ties being broken by the fixed neighbor-enumeration order
and stable insertion order. -/
theorem search_determined_by_inputs (g₁ g₂ : CostGrid) (s e : Node)
    (hh : g₁.h = g₂.h) (hw : g₁.w = g₂.w)
    (hc : ∀ r c, r < g₁.h → c < g₁.w → g₁.cost r c = g₂.cost r c) :
    search g₁ s e = search g₂ s e := by
  unfold search
  by_cases hb : inBounds g₁ s ∧ inBounds g₁ e
  · have hb₂ : inBounds g₂ s ∧ inBounds g₂ e := by
      unfold inBounds at hb ⊢
      rw [← hh, ← hw]
      exact hb
    rw [if_pos hb, if_pos hb₂]
    have hfr : ∀ x ∈ (initState s).frontier, inBounds g₁ x.node := by
      intro x hx
      rw [show (initState s).frontier = [⟨0, 0, s, none⟩] from rfl,
        List.mem_singleton] at hx
      subst hx
      exact hb.1
    have hfuel : searchFuel g₁ = searchFuel g₂ := by
      unfold searchFuel
      rw [hh, hw]
    rw [← hfuel, runSearch_congr g₁ g₂ hh hw hc e (searchFuel g₁) (initState s) hfr,
      hh, hw]
  · have hb₂ : ¬ (inBounds g₂ s ∧ inBounds g₂ e) := by
      unfold inBounds at hb ⊢
      rw [← hh, ← hw]
      exact hb
    rw [if_neg hb, if_neg hb₂]

/-- A grid agreeing with `wGridA` on all in-bounds cells but differing out of bounds. -/
def wGridB : CostGrid := ⟨2, 2, fun r c => if r < 2 ∧ c < 2 then 1 else 7⟩

/-- Witness for C9: the out-of-bounds cell values are never read. -/
theorem search_determined_by_inputs_witness :
    (wGridA.h = wGridB.h ∧ wGridA.w = wGridB.w ∧
      (∀ r, r < wGridA.h → ∀ c, c < wGridA.w → wGridA.cost r c = wGridB.cost r c) ∧
      wGridA.cost 5 5 ≠ wGridB.cost 5 5) ∧
      search wGridA (0, 0) (1, 1) = search wGridB (0, 0) (1, 1) :=
  ⟨⟨rfl, rfl, by decide, by decide⟩,
    search_determined_by_inputs wGridA wGridB (0, 0) (1, 1) rfl rfl
      (fun r c hr hc =>
        (by decide : ∀ r, r < wGridA.h → ∀ c, c < wGridA.w →
          wGridA.cost r c = wGridB.cost r c) r hr c hc)⟩

/-! ## Idealized IEEE float values for the raster pipeline

The slope and cost-surface computations of the notebook run on float arrays that may
hold NaN and ±infinity.  They are modelled by `Val α`: a scalar of `α` or one of the
special values, with IEEE semantics for the special values and exact arithmetic on
the finite part. -/

/-- An idealized floating-point value: NaN, ±infinity, or a finite scalar. -/
inductive Val (α : Type) where
  | nan : Val α
  | inf : Val α
  | ninf : Val α
  | fin : α → Val α
deriving DecidableEq

namespace Val

variable {α : Type} [LinearOrderedField α]

/-- IEEE subtraction. -/
def sub : Val α → Val α → Val α
  | nan, _ => nan
  | _, nan => nan
  | inf, inf => nan
  | inf, ninf => inf
  | inf, fin _ => inf
  | ninf, inf => ninf
  | ninf, ninf => nan
  | ninf, fin _ => ninf
  | fin _, inf => ninf
  | fin _, ninf => inf
  | fin x, fin y => fin (x - y)

/-- IEEE addition. -/
def add : Val α → Val α → Val α
  | nan, _ => nan
  | _, nan => nan
  | inf, ninf => nan
  | inf, _ => inf
  | ninf, inf => nan
  | ninf, _ => ninf
  | fin _, inf => inf
  | fin _, ninf => ninf
  | fin x, fin y => fin (x + y)

/-- IEEE multiplication (`∞ · 0 = NaN`). -/
def mul : Val α → Val α → Val α
  | nan, _ => nan
  | _, nan => nan
  | inf, inf => inf
  | inf, ninf => ninf
  | ninf, inf => ninf
  | ninf, ninf => inf
  | inf, fin y => if y = 0 then nan else if 0 < y then inf else ninf
  | ninf, fin y => if y = 0 then nan else if 0 < y then ninf else inf
  | fin x, inf => if x = 0 then nan else if 0 < x then inf else ninf
  | fin x, ninf => if x = 0 then nan else if 0 < x then ninf else inf
  | fin x, fin y => fin (x * y)

/-- IEEE division (`0/0 = NaN`, `x/0 = ±∞` for `x ≠ 0` with a positive zero divisor,
`x/±∞ = 0`, `±∞/±∞ = NaN`). -/
def div : Val α → Val α → Val α
  | nan, _ => nan
  | _, nan => nan
  | inf, inf => nan
  | inf, ninf => nan
  | ninf, inf => nan
  | ninf, ninf => nan
  | inf, fin y => if 0 ≤ y then inf else ninf
  | ninf, fin y => if 0 ≤ y then ninf else inf
  | fin _, inf => fin 0
  | fin _, ninf => fin 0
  | fin x, fin y =>
      if y = 0 then (if x = 0 then nan else if 0 < x then inf else ninf)
      else fin (x / y)

/-- Comparison of non-NaN values: `-∞ <` finite `< +∞` (any comparison with NaN is
false, as in IEEE). -/
def ble : Val α → Val α → Bool
  | nan, _ => false
  | _, nan => false
  | ninf, _ => true
  | inf, inf => true
  | inf, _ => false
  | fin _, ninf => false
  | fin _, inf => true
  | fin x, fin y => decide (x ≤ y)

/-- One step of a NaN-skipping minimum reduction (NaN accumulator = nothing seen). -/
def minStep : Val α → Val α → Val α
  | nan, acc => acc
  | x, nan => x
  | x, acc => if ble x acc then x else acc

/-- One step of a NaN-skipping maximum reduction. -/
def maxStep : Val α → Val α → Val α
  | nan, acc => acc
  | x, nan => x
  | x, acc => if ble acc x then x else acc

end Val

/-- A raster of idealized float cells. -/
structure VGrid (α : Type) where
  h : ℕ
  w : ℕ
  val : ℕ → ℕ → Val α

/-- All cells of the raster, row-major. -/
def VGrid.cells {α : Type} (g : VGrid α) : List (Val α) :=
  (List.range g.h).flatMap (fun r => (List.range g.w).map (fun c => g.val r c))

theorem VGrid.val_mem_cells {α : Type} (g : VGrid α) {i j : ℕ}
    (hi : i < g.h) (hj : j < g.w) : g.val i j ∈ g.cells := by
  unfold VGrid.cells
  rw [List.mem_flatMap]
  exact ⟨i, List.mem_range.mpr hi, List.mem_map.mpr ⟨j, List.mem_range.mpr hj, rfl⟩⟩

namespace Val

variable {α : Type} [LinearOrderedField α]

theorem ble_refl {x : Val α} (hx : x ≠ nan) : ble x x = true := by
  cases x
  · exact absurd rfl hx
  · rfl
  · rfl
  · simp [ble]

theorem ble_total {x y : Val α} (hx : x ≠ nan) (hy : y ≠ nan) :
    ble x y = true ∨ ble y x = true := by
  cases x <;> cases y <;>
    first
    | exact absurd rfl hx
    | exact absurd rfl hy
    | exact Or.inl rfl
    | exact Or.inr rfl
    | (simp only [ble, decide_eq_true_eq]; exact le_total _ _)

theorem ble_trans {x y z : Val α} (hy : y ≠ nan)
    (h1 : ble x y = true) (h2 : ble y z = true) : ble x z = true := by
  cases x <;> cases y <;> cases z <;>
    first
    | exact absurd rfl hy
    | rfl
    | exact Bool.noConfusion h1
    | exact Bool.noConfusion h2
    | (simp only [ble, decide_eq_true_eq] at h1 h2 ⊢; exact le_trans h1 h2)

theorem minStep_nan_left (acc : Val α) : minStep nan acc = acc := by cases acc <;> rfl

theorem minStep_nonnan_nan {x : Val α} (hx : x ≠ nan) : minStep x nan = x := by
  cases x
  · exact absurd rfl hx
  · rfl
  · rfl
  · rfl

theorem minStep_eq_ite {x acc : Val α} (hx : x ≠ nan) (hacc : acc ≠ nan) :
    minStep x acc = if ble x acc then x else acc := by
  cases x <;> cases acc <;>
    first
    | exact absurd rfl hx
    | exact absurd rfl hacc
    | rfl

theorem maxStep_nan_left (acc : Val α) : maxStep nan acc = acc := by cases acc <;> rfl

theorem maxStep_nonnan_nan {x : Val α} (hx : x ≠ nan) : maxStep x nan = x := by
  cases x
  · exact absurd rfl hx
  · rfl
  · rfl
  · rfl

theorem maxStep_eq_ite {x acc : Val α} (hx : x ≠ nan) (hacc : acc ≠ nan) :
    maxStep x acc = if ble acc x then x else acc := by
  cases x <;> cases acc <;>
    first
    | exact absurd rfl hx
    | exact absurd rfl hacc
    | rfl

theorem minFold_le (l : List (Val α)) : ∀ x ∈ l, x ≠ nan →
    ble (l.foldr minStep nan) x = true := by
  induction l with
  | nil =>
    intro x hx
    exact absurd hx (List.not_mem_nil x)
  | cons a l ih =>
    intro x hx hxn
    rw [List.foldr_cons]
    rcases List.mem_cons.mp hx with rfl | hxl
    · by_cases haccn : l.foldr minStep nan = nan
      · rw [haccn, minStep_nonnan_nan hxn]
        exact ble_refl hxn
      · rw [minStep_eq_ite hxn haccn]
        split_ifs with hb
        · exact ble_refl hxn
        · exact ((ble_total hxn haccn).resolve_left (by simpa using hb))
    · have ihx := ih x hxl hxn
      by_cases han : a = nan
      · rw [han, minStep_nan_left]
        exact ihx
      · by_cases haccn : l.foldr minStep nan = nan
        · rw [haccn] at ihx
          exact absurd ihx (by simp [ble])
        · rw [minStep_eq_ite han haccn]
          split_ifs with hb
          · exact ble_trans haccn hb ihx
          · exact ihx

theorem maxFold_ge (l : List (Val α)) : ∀ x ∈ l, x ≠ nan →
    ble x (l.foldr maxStep nan) = true := by
  induction l with
  | nil =>
    intro x hx
    exact absurd hx (List.not_mem_nil x)
  | cons a l ih =>
    intro x hx hxn
    rw [List.foldr_cons]
    rcases List.mem_cons.mp hx with rfl | hxl
    · by_cases haccn : l.foldr maxStep nan = nan
      · rw [haccn, maxStep_nonnan_nan hxn]
        exact ble_refl hxn
      · rw [maxStep_eq_ite hxn haccn]
        split_ifs with hb
        · exact ble_refl hxn
        · exact ((ble_total hxn haccn).resolve_right (by simpa using hb))
    · have ihx := ih x hxl hxn
      by_cases han : a = nan
      · rw [han, maxStep_nan_left]
        exact ihx
      · by_cases haccn : l.foldr maxStep nan = nan
        · rw [haccn] at ihx
          exact absurd ihx (by simp [ble])
        · rw [maxStep_eq_ite han haccn]
          split_ifs with hb
          · exact ble_trans haccn ihx hb
          · exact ihx

end Val

/-- Modelled from the source (notebook cell 10): `slope.min()` — xarray reduces with
`skipna=True` by default, skipping NaN cells only (infinities participate); an
all-NaN raster yields NaN. -/
def minSkip {α : Type} [LinearOrderedField α] (g : VGrid α) : Val α :=
  g.cells.foldr Val.minStep Val.nan

/-- Modelled from the source (notebook cell 10): `slope.max()`, NaN-skipping. -/
def maxSkip {α : Type} [LinearOrderedField α] (g : VGrid α) : Val α :=
  g.cells.foldr Val.maxStep Val.nan

/-- From the source (notebook cell 10):
`slope_normalized = (slope - slope.min()) / (slope.max() - slope.min())`.
Note the code has no special case for `max == min`. -/
def slopeNormalized {α : Type} [LinearOrderedField α] (g : VGrid α) (i j : ℕ) : Val α :=
  Val.div (Val.sub (g.val i j) (minSkip g)) (Val.sub (maxSkip g) (minSkip g))

/-- From the source (notebook cell 10): `cost_surface = 1 + (slope_normalized * 9)`. -/
def costSurfaceAt {α : Type} [LinearOrderedField α] (g : VGrid α) (i j : ℕ) : Val α :=
  Val.add (Val.fin 1) (Val.mul (slopeNormalized g i j) (Val.fin 9))

/-- From the source (notebook cell 13):
`cost_array = np.nan_to_num(cost_surface.values, nan=9999, posinf=9999, neginf=9999)`. -/
def nanToNum {α : Type} [LinearOrderedField α] (x : Val α) : Val α :=
  match x with
  | Val.nan => Val.fin 9999
  | Val.inf => Val.fin 9999
  | Val.ninf => Val.fin 9999
  | Val.fin q => Val.fin q

/-- The cost array consumed by the searcher. -/
def costArrayAt {α : Type} [LinearOrderedField α] (g : VGrid α) (i j : ℕ) : Val α :=
  nanToNum (costSurfaceAt g i j)

namespace Val

variable {α : Type} [LinearOrderedField α]

theorem sub_nan_left (y : Val α) : sub nan y = nan := by cases y <;> rfl

theorem sub_nan_right (x : Val α) : sub x nan = nan := by cases x <;> rfl

theorem div_nan_left (y : Val α) : div nan y = nan := by cases y <;> rfl

theorem mul_nan_left (y : Val α) : mul nan y = nan := by cases y <;> rfl

theorem mul_nan_right (x : Val α) : mul x nan = nan := by cases x <;> rfl

theorem add_nan_left (y : Val α) : add nan y = nan := by cases y <;> rfl

theorem add_nan_right (x : Val α) : add x nan = nan := by cases x <;> rfl

end Val

/-! ## Claim theorems for the cost-surface builder -/

theorem nanToNum_isFin {α : Type} [LinearOrderedField α] (x : Val α) :
    ∃ c, nanToNum x = Val.fin c := by
  cases x
  · exact ⟨9999, rfl⟩
  · exact ⟨9999, rfl⟩
  · exact ⟨9999, rfl⟩
  · exact ⟨_, rfl⟩

/-- A 2×2 slope grid with every cell 0 — the slope raster of flat terrain. -/
def flatSlope : VGrid ℚ := ⟨2, 2, fun _ _ => Val.fin 0⟩

attribute [local semireducible] Rat.add Rat.mul Rat.sub Rat.inv Rat.ofScientific in
/-- C3 (code bug): the code has no `max == min` special case — on a flat slope grid
it computes `(0 - 0)/(0 - 0) = NaN` at every cell and the later `nan_to_num` turns
every cell into the 9999 penalty, not the cost 1 required by the degenerate-range
rule. -/
theorem flat_slope_cost_is_penalty :
    costArrayAt flatSlope 0 0 = Val.fin 9999 ∧ costArrayAt flatSlope 0 1 = Val.fin 9999 ∧
      costArrayAt flatSlope 1 0 = Val.fin 9999 ∧ costArrayAt flatSlope 1 1 = Val.fin 9999 ∧
      (9999 : ℚ) ≠ 1 :=
  ⟨by decide, by decide, by decide, by decide, by decide⟩

/-- A 1×2 slope grid with both cells holding the valid slope value 3. -/
def flatSlope2 : VGrid ℚ := ⟨1, 2, fun _ _ => Val.fin 3⟩

attribute [local semireducible] Rat.add Rat.mul Rat.sub Rat.inv Rat.ofScientific in
/-- C2 counterexample: cell (0,0) holds the valid (finite, non-NaN) slope 3, yet the
built cost is the penalty 9999 ∉ [1,10]: the grid has `max == min`, every valid cell
goes through `0/0 = NaN` and the penalty substitution. -/
theorem valid_cell_gets_penalty_cex :
    flatSlope2.val 0 0 = Val.fin 3 ∧ costArrayAt flatSlope2 0 0 = Val.fin 9999 ∧
      ¬ ((1 : ℚ) ≤ 9999 ∧ (9999 : ℚ) ≤ 10) :=
  ⟨rfl, by decide, by decide⟩

/-- C2 amended: provided the NaN-skipping minimum `m` and maximum `M` of the slope
grid are finite with `m < M`, then no cell is ±∞, every valid (finite) cell gets a
cost in [1, 10], every invalid (NaN) cell gets exactly 9999, and no cell of the
result is NaN or infinite. -/
theorem costArray_spec (g : VGrid ℚ) (m M : ℚ)
    (hm : minSkip g = Val.fin m) (hM : maxSkip g = Val.fin M) (hlt : m < M)
    (i j : ℕ) (hi : i < g.h) (hj : j < g.w) :
    (g.val i j ≠ Val.inf ∧ g.val i j ≠ Val.ninf) ∧
    (∀ q, g.val i j = Val.fin q →
      ∃ c, costArrayAt g i j = Val.fin c ∧ 1 ≤ c ∧ c ≤ 10) ∧
    (g.val i j = Val.nan → costArrayAt g i j = Val.fin 9999) ∧
    (∃ c, costArrayAt g i j = Val.fin c) := by
  have hmem := VGrid.val_mem_cells g hi hj
  have hMm : M - m ≠ 0 := sub_ne_zero.mpr (ne_of_gt hlt)
  refine ⟨⟨?_, ?_⟩, ?_, ?_, nanToNum_isFin _⟩
  · intro heq
    have h1 := Val.maxFold_ge g.cells (g.val i j) hmem
      (by rw [heq]; intro hc; exact Val.noConfusion hc)
    rw [show g.cells.foldr Val.maxStep Val.nan = maxSkip g from rfl, hM, heq] at h1
    exact Bool.noConfusion h1
  · intro heq
    have h1 := Val.minFold_le g.cells (g.val i j) hmem
      (by rw [heq]; intro hc; exact Val.noConfusion hc)
    rw [show g.cells.foldr Val.minStep Val.nan = minSkip g from rfl, hm, heq] at h1
    exact Bool.noConfusion h1
  · intro q hq
    have h1 := Val.minFold_le g.cells (g.val i j) hmem
      (by rw [hq]; intro hc; exact Val.noConfusion hc)
    have h2 := Val.maxFold_ge g.cells (g.val i j) hmem
      (by rw [hq]; intro hc; exact Val.noConfusion hc)
    rw [show g.cells.foldr Val.minStep Val.nan = minSkip g from rfl, hm, hq] at h1
    rw [show g.cells.foldr Val.maxStep Val.nan = maxSkip g from rfl, hM, hq] at h2
    have hmq : m ≤ q := by simpa [Val.ble] using h1
    have hqM : q ≤ M := by simpa [Val.ble] using h2
    refine ⟨1 + (q - m) / (M - m) * 9, ?_, ?_, ?_⟩
    · unfold costArrayAt costSurfaceAt slopeNormalized
      rw [hq, hm, hM]
      rw [show Val.sub (Val.fin q) (Val.fin m) = Val.fin (q - m) from rfl,
        show Val.sub (Val.fin M) (Val.fin m) = Val.fin (M - m) from rfl]
      rw [show Val.div (Val.fin (q - m)) (Val.fin (M - m)) =
        Val.fin ((q - m) / (M - m)) from by simp [Val.div, hMm]]
      rfl
    · have ht : 0 ≤ (q - m) / (M - m) := div_nonneg (by linarith) (by linarith)
      nlinarith [ht]
    · have ht : (q - m) / (M - m) ≤ 1 := by
        rw [div_le_one (by linarith)]
        linarith
      have ht0 : 0 ≤ (q - m) / (M - m) := div_nonneg (by linarith) (by linarith)
      nlinarith [ht, ht0]
  · intro hq
    unfold costArrayAt costSurfaceAt slopeNormalized
    rw [hq, Val.sub_nan_left, Val.div_nan_left, Val.mul_nan_left, Val.add_nan_right]
    rfl

/-- A 1×2 slope grid with valid cells 0 and 1 (distinct finite min and max). -/
def wSlope : VGrid ℚ := ⟨1, 2, fun _ j => if j = 0 then Val.fin 0 else Val.fin 1⟩

attribute [local semireducible] Rat.add Rat.mul Rat.sub Rat.inv Rat.ofScientific in
/-- Witness for the amended C2 on a concrete slope grid. -/
theorem costArray_spec_witness :
    (minSkip wSlope = Val.fin 0 ∧ maxSkip wSlope = Val.fin 1 ∧ (0 : ℚ) < 1 ∧
      0 < wSlope.h ∧ 0 < wSlope.w) ∧
      ((wSlope.val 0 0 ≠ Val.inf ∧ wSlope.val 0 0 ≠ Val.ninf) ∧
        (∀ q, wSlope.val 0 0 = Val.fin q →
          ∃ c, costArrayAt wSlope 0 0 = Val.fin c ∧ 1 ≤ c ∧ c ≤ 10) ∧
        (wSlope.val 0 0 = Val.nan → costArrayAt wSlope 0 0 = Val.fin 9999) ∧
        (∃ c, costArrayAt wSlope 0 0 = Val.fin c)) :=
  ⟨⟨by decide, by decide, by decide, by decide, by decide⟩,
    costArray_spec wSlope 0 1 (by decide) (by decide) (by decide) 0 0
      (by decide) (by decide)⟩

/-! ## The slope computation (`np.gradient` and `atan`): C5 and C10 -/

/-- Modelled from the source (notebook cell 9): `np.gradient` along axis 0 (rows)
with scalar spacing `d`: one-sided differences at the first and last row, central
differences over spacing `2d` in the interior (numpy requires at least 2 rows). -/
def gradAxis0 (g : VGrid ℚ) (d : ℚ) (i j : ℕ) : Val ℚ :=
  if i = 0 then Val.div (Val.sub (g.val 1 j) (g.val 0 j)) (Val.fin d)
  else if i = g.h - 1 then Val.div (Val.sub (g.val i j) (g.val (i - 1) j)) (Val.fin d)
  else Val.div (Val.sub (g.val (i + 1) j) (g.val (i - 1) j)) (Val.fin (2 * d))

/-- `np.gradient` along axis 1 (columns), analogous. -/
def gradAxis1 (g : VGrid ℚ) (d : ℚ) (i j : ℕ) : Val ℚ :=
  if j = 0 then Val.div (Val.sub (g.val i 1) (g.val i 0)) (Val.fin d)
  else if j = g.w - 1 then Val.div (Val.sub (g.val i j) (g.val i (j - 1))) (Val.fin d)
  else Val.div (Val.sub (g.val i (j + 1)) (g.val i (j - 1))) (Val.fin (2 * d))

/-- Modelled from the source (notebook cell 9): `res_y, res_x = map(abs,
dem.rio.resolution())` binds `res_y` to rioxarray's first component — the x (column)
resolution `rx` — and `res_x` to the y (row) resolution `ry`; then
`np.gradient(dem.values, res_y, res_x)` uses `res_y = rx` as the axis-0 (row)
spacing: the code divides the row-axis differences by the column spacing. -/
def dzAxis0Code (g : VGrid ℚ) (rx _ry : ℚ) (i j : ℕ) : Val ℚ := gradAxis0 g rx i j

/-- The code's axis-1 (column) gradient: divided by `res_x = ry`, the row spacing. -/
def dzAxis1Code (g : VGrid ℚ) (_rx ry : ℚ) (i j : ℕ) : Val ℚ := gradAxis1 g ry i j

/-- Modelled from the spec (§4.1): the row-axis differences are divided by the row
spacing `ry` — "the elevation gradient along the row axis and column axis … scaled by
the respective spacing". -/
def dzAxis0Spec (g : VGrid ℚ) (ry : ℚ) (i j : ℕ) : Val ℚ := gradAxis0 g ry i j

/-- A 2×1 elevation grid rising from 0 to 4 along the row axis. -/
def elevC5 : VGrid ℚ := ⟨2, 1, fun i _ => if i = 1 then Val.fin 4 else Val.fin 0⟩

attribute [local semireducible] Rat.add Rat.mul Rat.sub Rat.inv Rat.ofScientific in
/-- C5 (code bug): with distinct spacings `rx = 1` (column) and `ry = 2` (row), the
code divides the row-axis elevation difference 4 by the column spacing, yielding a
gradient of 4, whereas the claimed per-axis scaling divides by the row spacing,
yielding 2 — the swapped unpacking of `rio.resolution()` exchanges the two spacings
(invisible only when pixels are square). -/
theorem gradient_spacing_swapped :
    dzAxis0Code elevC5 1 2 0 0 = Val.fin 4 ∧ dzAxis0Spec elevC5 2 0 0 = Val.fin 2 ∧
      Val.fin (4 : ℚ) ≠ Val.fin (2 : ℚ) :=
  ⟨by decide, by decide, by decide⟩

/-- `dz_dx**2 + dz_dy**2` as computed by the code. -/
def slopeMagSq (g : VGrid ℚ) (rx ry : ℚ) (i j : ℕ) : Val ℚ :=
  Val.add (Val.mul (dzAxis0Code g rx ry i j) (dzAxis0Code g rx ry i j))
    (Val.mul (dzAxis1Code g rx ry i j) (dzAxis1Code g rx ry i j))

/-- Embed finite rational cells into real cells. -/
def ratToReal : Val ℚ → Val ℝ
  | Val.nan => Val.nan
  | Val.inf => Val.inf
  | Val.ninf => Val.ninf
  | Val.fin q => Val.fin (q : ℝ)

/-- `np.degrees(np.arctan(np.sqrt(·)))` applied to the squared magnitude: NaN
propagates, a negative input (impossible for a square sum) gives NaN as `np.sqrt`
does, and `+∞` maps to 90 degrees. -/
noncomputable def atanSqrtDeg : Val ℝ → Val ℝ
  | Val.nan => Val.nan
  | Val.inf => Val.fin 90
  | Val.ninf => Val.nan
  | Val.fin x =>
      if x < 0 then Val.nan else Val.fin (Real.arctan (Real.sqrt x) * 180 / Real.pi)

/-- The slope raster (degrees) computed by the notebook from elevation `g` with
x-resolution `rx` and y-resolution `ry` (notebook cell 9). -/
noncomputable def slopeGrid (g : VGrid ℚ) (rx ry : ℚ) : VGrid ℝ :=
  ⟨g.h, g.w, fun i j => atanSqrtDeg (ratToReal (slopeMagSq g rx ry i j))⟩

/-- The elevation cells read by the axis-0 gradient at cell `(i, j)`. -/
def stencil0 (g : VGrid ℚ) (i j : ℕ) : List (Val ℚ) :=
  if i = 0 then [g.val 1 j, g.val 0 j]
  else if i = g.h - 1 then [g.val i j, g.val (i - 1) j]
  else [g.val (i + 1) j, g.val (i - 1) j]

/-- The elevation cells read by the axis-1 gradient at cell `(i, j)`. -/
def stencil1 (g : VGrid ℚ) (i j : ℕ) : List (Val ℚ) :=
  if j = 0 then [g.val i 1, g.val i 0]
  else if j = g.w - 1 then [g.val i j, g.val i (j - 1)]
  else [g.val i (j + 1), g.val i (j - 1)]

theorem gradAxis0_nan (g : VGrid ℚ) (d : ℚ) (i j : ℕ)
    (h : Val.nan ∈ stencil0 g i j) : gradAxis0 g d i j = Val.nan := by
  unfold stencil0 at h
  unfold gradAxis0
  split_ifs at h ⊢ with h1 h2 <;>
    (simp only [List.mem_cons, List.not_mem_nil, or_false] at h
     rcases h with h | h <;>
       first
       | rw [← h, Val.sub_nan_left, Val.div_nan_left]
       | rw [← h, Val.sub_nan_right, Val.div_nan_left])

theorem gradAxis1_nan (g : VGrid ℚ) (d : ℚ) (i j : ℕ)
    (h : Val.nan ∈ stencil1 g i j) : gradAxis1 g d i j = Val.nan := by
  unfold stencil1 at h
  unfold gradAxis1
  split_ifs at h ⊢ with h1 h2 <;>
    (simp only [List.mem_cons, List.not_mem_nil, or_false] at h
     rcases h with h | h <;>
       first
       | rw [← h, Val.sub_nan_left, Val.div_nan_left]
       | rw [← h, Val.sub_nan_right, Val.div_nan_left])

/-- C10: a NaN elevation cell contaminates every cell whose finite-difference stencil
reads it (in particular the axis-adjacent neighbors of a NaN cell): the computed
slope there is NaN and, after the penalty substitution, the built cost is exactly
9999 rather than a value in [1, 10] — whatever the resolutions and the rest of the
grid. -/
theorem nan_stencil_gives_penalty (g : VGrid ℚ) (rx ry : ℚ) (i j : ℕ)
    (h : Val.nan ∈ stencil0 g i j ∨ Val.nan ∈ stencil1 g i j) :
    (slopeGrid g rx ry).val i j = Val.nan ∧
      costArrayAt (slopeGrid g rx ry) i j = Val.fin 9999 := by
  have hmag : slopeMagSq g rx ry i j = Val.nan := by
    unfold slopeMagSq
    rcases h with h | h
    · rw [show dzAxis0Code g rx ry i j = Val.nan from gradAxis0_nan g rx i j h,
        Val.mul_nan_left, Val.add_nan_left]
    · rw [show dzAxis1Code g rx ry i j = Val.nan from gradAxis1_nan g ry i j h,
        Val.mul_nan_left, Val.add_nan_right]
  have hslope : (slopeGrid g rx ry).val i j = Val.nan := by
    show atanSqrtDeg (ratToReal (slopeMagSq g rx ry i j)) = Val.nan
    rw [hmag]
    rfl
  refine ⟨hslope, ?_⟩
  unfold costArrayAt costSurfaceAt slopeNormalized
  rw [hslope, Val.sub_nan_left, Val.div_nan_left, Val.mul_nan_left, Val.add_nan_right]
  rfl

/-- A 2×2 elevation grid whose only NaN is cell (0,0); all other cells are valid. -/
def elevC10 : VGrid ℚ := ⟨2, 2, fun i j => if i = 0 ∧ j = 0 then Val.nan else Val.fin 0⟩

/-- Witness for C10: cell (1,0) has a valid elevation, but its row-axis stencil reads
the NaN at (0,0), so its slope is NaN and its cost 9999. -/
theorem nan_stencil_gives_penalty_witness :
    (Val.nan ∈ stencil0 elevC10 1 0 ∨ Val.nan ∈ stencil1 elevC10 1 0) ∧
      ((slopeGrid elevC10 1 1).val 1 0 = Val.nan ∧
        costArrayAt (slopeGrid elevC10 1 1) 1 0 = Val.fin 9999) :=
  ⟨by decide, nan_stencil_gives_penalty elevC10 1 1 1 0 (by decide)⟩

/-! ## The coordinate indexer: C4 -/

/-- An affine georeferencing transform `(col, row) ↦ (x, y)` in rasterio coefficient
order: `x = a·col + b·row + c`, `y = d·col + e·row + f`. -/
structure Affine where
  a : ℚ
  b : ℚ
  c : ℚ
  d : ℚ
  e : ℚ
  f : ℚ

/-- Determinant of the linear part. -/
def Affine.det (T : Affine) : ℚ := T.a * T.e - T.b * T.d

/-- The forward transform. -/
def Affine.fwd (T : Affine) (col row : ℚ) : ℚ × ℚ :=
  (T.a * col + T.b * row + T.c, T.d * col + T.e * row + T.f)

/-- The fractional `(col, row)` image of a ground point under the algebraic inverse
transform. -/
def Affine.inv (T : Affine) (x y : ℚ) : ℚ × ℚ :=
  ((T.e * (x - T.c) - T.b * (y - T.f)) / T.det,
    (T.a * (y - T.f) - T.d * (x - T.c)) / T.det)

/-- Modelled from the source (notebook cell 12, `rasterio.transform.rowcol` with its
default `op = math.floor`): apply the inverse transform to the ground point and floor
both fractional indices, returning `(row, col)`.  No bounds check is performed. -/
def rowcol (T : Affine) (x y : ℚ) : ℤ × ℤ :=
  (⌊(T.inv x y).2⌋, ⌊(T.inv x y).1⌋)

/-- A north-up unit transform: x = col, y = -row. -/
def T0 : Affine := ⟨1, 0, 0, 0, -1, 0⟩

attribute [local semireducible] Rat.add Rat.mul Rat.sub Rat.inv Rat.ofScientific in
/-- C4 counterexample: for a 1×1 grid, the point (11/2, -1/2) resolves to the
out-of-bounds index (0, 5) — column 5 ≥ width 1 — and the code returns it without
raising any error, contradicting "fails if and only if out of bounds" and "never
returns an index outside the grid". -/
theorem rowcol_no_bounds_check :
    rowcol T0 (11 / 2) (-1 / 2) = (0, 5) ∧ ¬ ((5 : ℤ) < 1) :=
  ⟨by decide, by decide⟩

/-- C4 amended: `to_index` returns the containing cell — the floor of the inverse
affine transform, so the fractional index lies in the half-open unit cell at the
returned `(row, col)`, and the forward transform maps the fractional index back to
the query point — but it performs no bounds checking and never fails: the resolved
index is returned even when it lies outside `[0, height) × [0, width)`. -/
theorem rowcol_floor_containing (T : Affine) (x y : ℚ) (hdet : T.det ≠ 0) :
    T.fwd (T.inv x y).1 (T.inv x y).2 = (x, y) ∧
      ((rowcol T x y).2 : ℚ) ≤ (T.inv x y).1 ∧ (T.inv x y).1 < (rowcol T x y).2 + 1 ∧
      ((rowcol T x y).1 : ℚ) ≤ (T.inv x y).2 ∧ (T.inv x y).2 < (rowcol T x y).1 + 1 := by
  refine ⟨?_, ?_, ?_, ?_, ?_⟩
  · have hd2 : T.a * T.e - T.b * T.d ≠ 0 := by
      unfold Affine.det at hdet
      exact hdet
    unfold Affine.fwd Affine.inv Affine.det
    dsimp only
    rw [Prod.ext_iff]
    dsimp only
    constructor
    · field_simp [hd2]
      ring
    · field_simp [hd2]
      ring
  · exact Int.floor_le _
  · exact Int.lt_floor_add_one _
  · exact Int.floor_le _
  · exact Int.lt_floor_add_one _

attribute [local semireducible] Rat.add Rat.mul Rat.sub Rat.inv Rat.ofScientific in
/-- Witness for the amended C4 at a concrete transform and point. -/
theorem rowcol_floor_containing_witness :
    T0.det ≠ 0 ∧
      (T0.fwd (T0.inv (1 / 3) 2).1 (T0.inv (1 / 3) 2).2 = (1 / 3, 2) ∧
        ((rowcol T0 (1 / 3) 2).2 : ℚ) ≤ (T0.inv (1 / 3) 2).1 ∧
        (T0.inv (1 / 3) 2).1 < (rowcol T0 (1 / 3) 2).2 + 1 ∧
        ((rowcol T0 (1 / 3) 2).1 : ℚ) ≤ (T0.inv (1 / 3) 2).2 ∧
        (T0.inv (1 / 3) 2).2 < (rowcol T0 (1 / 3) 2).1 + 1) :=
  ⟨by decide, rowcol_floor_containing T0 (1 / 3) 2 (by decide)⟩

end BatSlope
